import Mathlib

/-!
Verification of the workload-execution engine of the MongoDB workload
generator: ratio normalization (internal/config/config.go), weighted
operation selection and worker/transaction control flow
(internal/mongo/runner.go), the latency histogram and stats collector
(internal/stats/collector.go), the flight-document generator
(internal/mongo/setup.go), and the deep-clone / placeholder-substitution
frame property.

Conventions of the shallow embedding:
  - Go `int` values are modelled as `Int`.
  - Go `float64` arithmetic in the normalizer (`int(float64(v) * factor)`
    with `factor = num/den`) is modelled as exact rational scaling followed
    by Go conversion-to-int truncation toward zero, i.e. `(v * num).tdiv den`.
  - Go `float64` latency values are modelled as exact rationals `ℚ`;
    `math.Round` (round half away from zero) is modelled on `ℚ`.
  - Randomness (`rand.Intn`, `rand.Shuffle`) is modelled by passing the
    drawn values / the produced permutation as explicit parameters.
-/

/-! ### Ratio normalizer (internal/config/config.go, normalizePercentages) -/

/-- The seven operation percentage fields of AppConfig: find, update, delete,
insert, aggregate, transaction, bulk-insert. Go `int` modelled as `Int`. -/
structure OpPercents where
  find : ℤ
  update : ℤ
  delete : ℤ
  insert : ℤ
  aggregate : ℤ
  transaction : ℤ
  bulkInsert : ℤ
deriving DecidableEq

/-- Which of the seven percentages were pinned by environment overrides
(the `pinned map[string]bool` argument of normalizePercentages). -/
structure OpPinned where
  find : Bool
  update : Bool
  delete : Bool
  insert : Bool
  aggregate : Bool
  transaction : Bool
  bulkInsert : Bool
deriving DecidableEq

/-- The explicit seven-term total computed at the end of normalizePercentages
(config.go line 448). -/
def sumPct (c : OpPercents) : ℤ :=
  c.find + c.update + c.delete + c.insert + c.aggregate + c.transaction + c.bulkInsert

/-- Step 2 of normalizePercentages: the total of the pinned values. -/
def pinnedTotal (p : OpPinned) (c : OpPercents) : ℤ :=
  (if p.find then c.find else 0) + (if p.update then c.update else 0) +
  (if p.delete then c.delete else 0) + (if p.insert then c.insert else 0) +
  (if p.aggregate then c.aggregate else 0) + (if p.transaction then c.transaction else 0) +
  (if p.bulkInsert then c.bulkInsert else 0)

/-- Sum of the non-pinned values (the `unpinnedTotal` of the `pinnedTotal < 100`
branch). -/
def unpinnedTotal (p : OpPinned) (c : OpPercents) : ℤ :=
  (if p.find then 0 else c.find) + (if p.update then 0 else c.update) +
  (if p.delete then 0 else c.delete) + (if p.insert then 0 else c.insert) +
  (if p.aggregate then 0 else c.aggregate) + (if p.transaction then 0 else c.transaction) +
  (if p.bulkInsert then 0 else c.bulkInsert)

/-- Go `int(float64(v) * (float64 num / float64 den))`: exact scaling then
truncation toward zero. -/
def goScale (v num den : ℤ) : ℤ := Int.tdiv (v * num) den

/-- Zero out all non-pinned fields (config.go lines 337-358). -/
def zeroUnpinned (p : OpPinned) (c : OpPercents) : OpPercents where
  find := if p.find then c.find else 0
  update := if p.update then c.update else 0
  delete := if p.delete then c.delete else 0
  insert := if p.insert then c.insert else 0
  aggregate := if p.aggregate then c.aggregate else 0
  transaction := if p.transaction then c.transaction else 0
  bulkInsert := if p.bulkInsert then c.bulkInsert else 0

/-- Scale all pinned fields by factor 100/pinnedTotal (config.go lines 360-384). -/
def scalePinnedBy (p : OpPinned) (pT : ℤ) (c : OpPercents) : OpPercents where
  find := if p.find then goScale c.find 100 pT else c.find
  update := if p.update then goScale c.update 100 pT else c.update
  delete := if p.delete then goScale c.delete 100 pT else c.delete
  insert := if p.insert then goScale c.insert 100 pT else c.insert
  aggregate := if p.aggregate then goScale c.aggregate 100 pT else c.aggregate
  transaction := if p.transaction then goScale c.transaction 100 pT else c.transaction
  bulkInsert := if p.bulkInsert then goScale c.bulkInsert 100 pT else c.bulkInsert

/-- Scale all non-pinned fields by factor remaining/unpinnedTotal
(config.go lines 414-438). -/
def scaleUnpinnedBy (p : OpPinned) (remaining u : ℤ) (c : OpPercents) : OpPercents where
  find := if p.find then c.find else goScale c.find remaining u
  update := if p.update then c.update else goScale c.update remaining u
  delete := if p.delete then c.delete else goScale c.delete remaining u
  insert := if p.insert then c.insert else goScale c.insert remaining u
  aggregate := if p.aggregate then c.aggregate else goScale c.aggregate remaining u
  transaction := if p.transaction then c.transaction else goScale c.transaction remaining u
  bulkInsert := if p.bulkInsert then c.bulkInsert else goScale c.bulkInsert remaining u

/-- The main branch of normalizePercentages (config.go lines 336-445):
if pinnedTotal is at least 100 the non-pinned fields are zeroed and, when it
strictly exceeds 100, the pinned fields are scaled down; otherwise the
non-pinned fields are scaled to fill the remaining space, or, when all
non-pinned values sum to 0, the whole remainder is assigned to find. -/
def normalizeStep (p : OpPinned) (c : OpPercents) : OpPercents :=
  let pT := pinnedTotal p c
  if 100 ≤ pT then
    let z := zeroUnpinned p c
    if 100 < pT then scalePinnedBy p pT z else z
  else
    let remaining := 100 - pT
    let u := unpinnedTotal p c
    if 0 < u then scaleUnpinnedBy p remaining u c
    else { c with find := c.find + remaining }

/-- Step 4 of normalizePercentages (config.go lines 447-452): add the rounding
residue 100 - finalTotal to the find percentage. -/
def finalFix (c : OpPercents) : OpPercents :=
  { c with find := c.find + (100 - sumPct c) }

/-- normalizePercentages (config.go lines 301-453): enforce the transaction
flag, then run the main branch, then the final sum correction. -/
def normalizePercentages (useTransactions : Bool) (p : OpPinned) (c : OpPercents) :
    OpPercents :=
  let c0 := if useTransactions then c else { c with transaction := 0 }
  let p0 := if useTransactions then p else { p with transaction := false }
  finalFix (normalizeStep p0 c0)

/-! ### Latency histogram and stats collector (internal/stats/collector.go) -/

/-- The bucket-array size of LatencyHistogram (collector.go line 20). -/
def MaxLatencyBin : ℕ := 10000

/-- Go math.Round on exact rationals: round to nearest integer, ties away
from zero. -/
def goRound (q : ℚ) : ℤ := if 0 ≤ q then ⌊q + 1 / 2⌋ else ⌈q - 1 / 2⌉

/-- The clamped bucket index computed by Record (collector.go lines 45-48):
round the millisecond value, clamp negatives to 0. -/
def bucketOf (ms : ℚ) : ℤ :=
  let b := goRound ms
  if b < 0 then 0 else b

/-- LatencyHistogram (collector.go lines 22-30). The fixed bucket array is
modelled as a function on indices; only indices below MaxLatencyBin are used. -/
structure LatencyHistogram where
  Buckets : ℕ → ℤ
  Overflow : ℤ
  Count : ℤ
  Sum : ℚ
  Min : ℚ
  Max : ℚ

/-- math.MaxFloat64, the Min sentinel NewCollector stores in fresh
histograms. -/
def maxFloat64 : ℚ := 2 ^ 1024 - 2 ^ 971

/-- A histogram as initialized by NewCollector (collector.go lines 99-108):
zero counters and Min = math.MaxFloat64. -/
def emptyHistogram : LatencyHistogram where
  Buckets := fun _ => 0
  Overflow := 0
  Count := 0
  Sum := 0
  Min := maxFloat64
  Max := 0

/-- LatencyHistogram.Record (collector.go lines 32-54): bump count and sum,
update min and max, then increment the rounded (clamped) bucket, or the
overflow counter for values at or above MaxLatencyBin. -/
def LatencyHistogram.Record (h : LatencyHistogram) (ms : ℚ) : LatencyHistogram :=
  let count := h.Count + 1
  let sum := h.Sum + ms
  let mn := if ms < h.Min then ms else h.Min
  let mx := if h.Max < ms then ms else h.Max
  let bucket := bucketOf ms
  if (MaxLatencyBin : ℤ) ≤ bucket then
    { Buckets := h.Buckets, Overflow := h.Overflow + 1, Count := count,
      Sum := sum, Min := mn, Max := mx }
  else
    { Buckets := fun i => if i = bucket.toNat then h.Buckets i + 1 else h.Buckets i,
      Overflow := h.Overflow, Count := count, Sum := sum, Min := mn, Max := mx }

/-- The bucket walk of GetPercentile (collector.go lines 63-69): accumulate
counts in index order and return the first index whose running total reaches
the target; after the fixed number of buckets, return MaxLatencyBin. -/
def percentileLoop (buckets : ℕ → ℤ) (target : ℤ) : ℕ → ℤ → ℕ → ℚ
  | _, _, 0 => (MaxLatencyBin : ℚ)
  | i, cum, fuel + 1 =>
    let cum2 := cum + buckets i
    if target ≤ cum2 then (i : ℚ) else percentileLoop buckets target (i + 1) cum2 fuel

/-- LatencyHistogram.GetPercentile (collector.go lines 56-71). -/
def LatencyHistogram.GetPercentile (h : LatencyHistogram) (p : ℚ) : ℚ :=
  if h.Count = 0 then 0
  else
    let targetCount : ℤ := ⌈p / 100 * (h.Count : ℚ)⌉
    percentileLoop h.Buckets targetCount 0 0 MaxLatencyBin

/-- Record a whole sequence of latencies in order. -/
def recordAll (h : LatencyHistogram) : List ℚ → LatencyHistogram
  | [] => h
  | ms :: rest => recordAll (h.Record ms) rest

/-- Sum of n consecutive bucket counters starting at index i. -/
def sumFrom (b : ℕ → ℤ) : ℕ → ℕ → ℤ
  | _, 0 => 0
  | i, n + 1 => b i + sumFrom b (i + 1) n

/-- The stats Collector (collector.go lines 73-97): per-kind operation and
nanosecond counters plus one latency histogram per kind. The monitor-only
snapshot fields are omitted. -/
structure Collector where
  FindOps : ℤ
  FindTotalNs : ℤ
  InsertOps : ℤ
  InsertTotalNs : ℤ
  UpdateOps : ℤ
  UpdateTotalNs : ℤ
  DeleteOps : ℤ
  DeleteTotalNs : ℤ
  AggOps : ℤ
  AggTotalNs : ℤ
  FindHist : LatencyHistogram
  InsertHist : LatencyHistogram
  UpdateHist : LatencyHistogram
  DeleteHist : LatencyHistogram
  AggHist : LatencyHistogram

/-- NewCollector (collector.go lines 99-108). -/
def NewCollector : Collector where
  FindOps := 0
  FindTotalNs := 0
  InsertOps := 0
  InsertTotalNs := 0
  UpdateOps := 0
  UpdateTotalNs := 0
  DeleteOps := 0
  DeleteTotalNs := 0
  AggOps := 0
  AggTotalNs := 0
  FindHist := emptyHistogram
  InsertHist := emptyHistogram
  UpdateHist := emptyHistogram
  DeleteHist := emptyHistogram
  AggHist := emptyHistogram

/-- Collector.Track (collector.go lines 185-211): switch on the operation
kind; durations are tracked in nanoseconds and recorded in milliseconds.
Operation kinds without a case, such as "transaction", fall through with no
effect. -/
def Collector.Track (c : Collector) (opType : String) (ns : ℤ) : Collector :=
  let ms : ℚ := (ns : ℚ) / 1000000
  if opType = "find" then
    { c with FindOps := c.FindOps + 1, FindTotalNs := c.FindTotalNs + ns,
             FindHist := c.FindHist.Record ms }
  else if opType = "insert" then
    { c with InsertOps := c.InsertOps + 1, InsertTotalNs := c.InsertTotalNs + ns,
             InsertHist := c.InsertHist.Record ms }
  else if opType = "updateOne" ∨ opType = "updateMany" then
    { c with UpdateOps := c.UpdateOps + 1, UpdateTotalNs := c.UpdateTotalNs + ns,
             UpdateHist := c.UpdateHist.Record ms }
  else if opType = "deleteOne" ∨ opType = "deleteMany" then
    { c with DeleteOps := c.DeleteOps + 1, DeleteTotalNs := c.DeleteTotalNs + ns,
             DeleteHist := c.DeleteHist.Record ms }
  else if opType = "aggregate" then
    { c with AggOps := c.AggOps + 1, AggTotalNs := c.AggTotalNs + ns,
             AggHist := c.AggHist.Record ms }
  else c

/-- First error among the sequential inner-operation results of a
transaction body (runner part: runTransaction lines 195-257); execution
stops at the first failing operation. -/
def firstError : List (Option String) → Option String
  | [] => none
  | some e :: _ => some e
  | none :: rest => firstError rest

/-- runTransaction (runner part lines 185-267) restricted to its effect on
the stats collector: the database-facing inner operations are summarized by
their outcome list. On any inner error WithTransaction aborts and the
function returns before tracking; on success Track is invoked once with
operation kind "transaction" and the total elapsed time. -/
def runTransaction (innerResults : List (Option String)) (c : Collector)
    (elapsedNs : ℤ) : Collector :=
  match firstError innerResults with
  | some _ => c
  | none => c.Track "transaction" elapsedNs

/-- The execute-and-record tail of one independentWorker iteration (runner
part lines 328-380): the switch runs the operation, a database error is only
logged (in debug mode), and Track is invoked unconditionally with the
resolved operation kind and the elapsed time. -/
def workerIteration (opType : String) (dbOutcome : Option String) (c : Collector)
    (elapsedNs : ℤ) : Collector :=
  match dbOutcome with
  | some _ => c.Track opType elapsedNs
  | none => c.Track opType elapsedNs

/-- Invariant of every histogram state reachable by Record from the
NewCollector initial state: max is nonnegative, buckets are nonnegative,
any occupied bucket index and a nonempty overflow are within half a
millisecond of the recorded maximum, and the counters partition Count. -/
def histInv (h : LatencyHistogram) : Prop :=
  0 ≤ h.Max ∧ (∀ i, 0 ≤ h.Buckets i) ∧
  (∀ i, i < MaxLatencyBin → 0 < h.Buckets i → (i : ℚ) ≤ h.Max + 1 / 2) ∧
  (0 < h.Overflow → (MaxLatencyBin : ℚ) ≤ h.Max + 1 / 2) ∧
  sumFrom h.Buckets 0 MaxLatencyBin + h.Overflow = h.Count ∧ 0 ≤ h.Count

/-! ### Weighted operation selector (runner, selectOperation) -/

/-- The ordered list of base operation buckets (runner part line 46). -/
def operationTypes : List String :=
  ["find", "update", "delete", "insert", "insertMany", "aggregate", "transaction"]

/-- The loop body of selectOperation: walk the buckets keeping a running
cumulative sum; on the first bucket with r < cum, the switch picks the
concrete operation (with the secondary 90/10 draw s inside the update and
delete buckets); if the walk ends, return "find". -/
def selectLoop (pcts : String → ℤ) (r s : ℤ) : List String → ℤ → String
  | [], _ => "find"
  | op :: rest, cum =>
    let cum2 := cum + pcts op
    if r < cum2 then
      if op = "update" then (if s < 90 then "updateOne" else "updateMany")
      else if op = "delete" then (if s < 90 then "deleteOne" else "deleteMany")
      else op
    else selectLoop pcts r s rest cum2

/-- selectOperation (runner part lines 48-74). The percentages map is a
total function (Go map lookups of absent keys yield 0); the rand.Intn(100)
draws r (primary) and s (secondary) are explicit parameters. A nil map
returns "find". -/
def selectOperation (percentages : Option (String → ℤ)) (r s : ℤ) : String :=
  match percentages with
  | none => "find"
  | some pcts => selectLoop pcts r s operationTypes 0

/-- Modelled from the spec: the cumulative sums of the ordered operation
buckets, one entry per bucket. -/
def cumulativeSums (pcts : String → ℤ) (ops : List String) : List ℤ :=
  (ops.scanl (fun acc op => acc + pcts op) 0).tail

/-- Modelled from the spec wording of the selector: the first bucket whose
cumulative sum exceeds r is selected; inside the update and delete buckets a
secondary 90/10 draw picks the One variant when s < 90 and the Many variant
otherwise; if no bucket matches, default to "find". -/
def specSelectOperation (pcts : String → ℤ) (r s : ℤ) : String :=
  match (operationTypes.zip (cumulativeSums pcts operationTypes)).find?
      (fun pair => decide (r < pair.2)) with
  | none => "find"
  | some pair =>
    if pair.1 = "update" then (if s < 90 then "updateOne" else "updateMany")
    else if pair.1 = "delete" then (if s < 90 then "deleteOne" else "deleteMany")
    else pair.1

/-- A concrete percentages map used to exercise the selector. -/
def demoPercents : String → ℤ := fun op =>
  if op = "find" then 30 else if op = "update" then 40
  else if op = "delete" then 30 else 0

/-! ### Fixed mode: RunWorkload with nonpositive duration (runner part) -/

/-- QueryDefinition (internal/config, queries file): the fields the
fixed-mode scheduler consults; the filter, update, pipeline and projection
documents are handled separately by the heap model of the materializer. -/
structure QueryDefinition where
  Database : String
  Collection : String
  Operation : String
  Limit : ℤ
deriving DecidableEq

/-- What queryWorkerOnce does with one task (runner part lines 550-558): a
find task runs a Find with the materialized filter, an updateOne task runs an
UpdateOne, and any other operation falls through the switch. -/
inductive FixedAction where
  | ranFind (collection : String)
  | ranUpdateOne (collection : String)
  | noOp (operation : String)
deriving DecidableEq

/-- The switch of queryWorkerOnce on one consumed task. -/
def processTask (q : QueryDefinition) : FixedAction :=
  if q.Operation = "find" then .ranFind q.Collection
  else if q.Operation = "updateOne" then .ranUpdateOne q.Collection
  else .noOp q.Operation

/-- The task-producer loop of runAllQueriesOnce (runner part lines 520-531):
skip every query whose operation is insert or insertMany, send each other
query to the channel exactly once, in order. -/
def fixedModeTasks : List QueryDefinition → List QueryDefinition
  | [] => []
  | q :: rest =>
    if q.Operation = "insert" ∨ q.Operation = "insertMany" then fixedModeTasks rest
    else q :: fixedModeTasks rest

/-- queryWorkerOnce (runner part lines 537-560): the single worker drains the
channel, processing each task exactly once in order. -/
def queryWorkerOnce (tasks : List QueryDefinition) : List FixedAction :=
  tasks.map processTask

/-- runAllQueriesOnce (runner part lines 512-535): produce the task list,
let one worker process it, and return nil error. -/
def runAllQueriesOnce (queries : List QueryDefinition) :
    List FixedAction × Option String :=
  (queryWorkerOnce (fixedModeTasks queries), none)

/-- Result of the RunWorkload entry point at the scheduling level. -/
inductive RunOutcome where
  | parseError
  | fixed (actions : List FixedAction)
  | continuous
deriving DecidableEq

/-- RunWorkload (runner part lines 430-439): the time.ParseDuration result
is passed explicitly (none for a malformed duration string); a parse failure
is returned as an error, a nonpositive duration runs every configured query
once via runAllQueriesOnce, and a positive one starts the continuous
workload. -/
def RunWorkload (parsedDuration : Option ℤ) (queries : List QueryDefinition) :
    RunOutcome :=
  match parsedDuration with
  | none => .parseError
  | some d => if d ≤ 0 then .fixed (runAllQueriesOnce queries).1 else .continuous

/-- A concrete authored query set: find, updateOne and one insert template. -/
def demoQueries : List QueryDefinition :=
  [⟨"app", "flights", "find", 5⟩, ⟨"app", "flights", "updateOne", 0⟩,
   ⟨"app", "flights", "insert", 0⟩]

/-! ### Flight-document generator (setup part, randomPassengers) -/

/-- The decimal digit characters printed by the %d verb of fmt. -/
def goDigitChar (n : ℕ) : Char := Char.ofNat (48 + n)

/-- The decimal digit string of the %d verb of fmt. -/
def goDecimalRepr (n : ℕ) : List Char :=
  if _h : n < 10 then [goDigitChar n]
  else goDecimalRepr (n / 10) ++ [goDigitChar (n % 10)]
decreasing_by exact Nat.div_lt_self (by omega) (by norm_num)

/-- The seat letters A-F (setup part line 284), as the single characters the
%s verb appends after the row number. -/
def seatLetters : List Char := ['A', 'B', 'C', 'D', 'E', 'F']

/-- One seat label: fmt.Sprintf of row number and letter (setup part
line 295). -/
def seatName (row : ℕ) (letter : Char) : String :=
  String.mk (goDecimalRepr row ++ [letter])

/-- The deck-building loop (setup part lines 288-298): fill rows
sequentially, appending the letters of each row in order and stopping as
soon as the deck holds totalSeats labels. -/
def buildDeck (remaining currentRow : ℕ) : List String :=
  if remaining = 0 then []
  else
    (seatLetters.map (seatName currentRow)).take remaining ++
      buildDeck (remaining - 6) (currentRow + 1)
decreasing_by exact Nat.sub_lt (by omega) (by norm_num)

/-- The full deck of seats of a plane, rows starting at 1. -/
def allSeats (totalSeats : ℕ) : List String := buildDeck totalSeats 1

/-- One passenger document (setup part lines 309-315). -/
structure Passenger where
  passengerId : ℤ
  name : String
  ticketNumber : String
  seatNumber : String
deriving DecidableEq

/-- randomPassengers (setup part lines 272-318): the passenger count is
total_seats - seats_available, clamped below by 1 and then above by
total_seats; the deck of all seats is shuffled by rng.Shuffle (modelled by
its contract, an arbitrary permutation of the deck) and passenger i is
assigned the i-th seat of the shuffled deck. Faker names and ticket draws
are external and passed as functions of the passenger index. -/
def randomPassengers (totalSeats seatsAvailable : ℤ)
    (shuffle : List String → List String) (name ticket : ℕ → String) :
    List Passenger :=
  let numPassengers0 := totalSeats - seatsAvailable
  let numPassengers1 := if numPassengers0 < 1 then 1 else numPassengers0
  let numPassengers := if numPassengers1 > totalSeats then totalSeats else numPassengers1
  let deck := shuffle (allSeats totalSeats.toNat)
  (List.range numPassengers.toNat).map fun (i : ℕ) =>
    { passengerId := (i : ℤ) + 1, name := name i, ticketNumber := ticket i,
      seatNumber := deck.getD i "" }

/-- maxTotalSeats (setup part line 252). -/
def maxTotalSeats : ℤ := 50

/-- The seat-consistency tail of GenerateDefaultDocument (setup part lines
376-388): a missing equipment total falls back to maxTotalSeats, a
seats_available above the total is replaced by the redraw rng.Intn(total)+1,
and the passenger list is produced by randomPassengers. -/
def generateDefaultDocPassengers (totalSeats0 seatsAvailable0 redraw : ℤ)
    (shuffle : List String → List String) (name ticket : ℕ → String) :
    List Passenger :=
  let totalSeats := if totalSeats0 = 0 then maxTotalSeats else totalSeats0
  let seatsAvailable := if seatsAvailable0 > totalSeats then redraw else seatsAvailable0
  randomPassengers totalSeats seatsAvailable shuffle name ticket

/-- Decimal decoding of a digit string, the inverse of the %d verb. -/
def digitsVal (cs : List Char) : ℕ := cs.foldl (fun a c => 10 * a + (c.toNat - 48)) 0

/-! ### Heap model of deepClone and processRecursive (runner part) -/

/-- A Go interface value held directly: strings, ints, and anything the
deep-clone type switch passes through unchanged. -/
inductive GoScalar where
  | str (s : String)
  | int (n : ℤ)
  | other
deriving DecidableEq

/-- A Go interface value: a scalar, or a reference to a heap node holding a
map[string]interface or a []interface. -/
inductive GoVal where
  | scalar (s : GoScalar)
  | ref (a : ℕ)
deriving DecidableEq

/-- A heap node: a map (ordered entry list) or a slice. -/
inductive GoNode where
  | map (entries : List (String × GoVal))
  | arr (elems : List GoVal)
deriving DecidableEq

/-- The heap: node store plus the next fresh address. -/
structure GoHeap where
  mem : ℕ → Option GoNode
  next : ℕ

/-- Allocate a fresh node, Go make of a map or slice. -/
def GoHeap.alloc (h : GoHeap) (n : GoNode) : ℕ × GoHeap :=
  (h.next,
   { mem := fun a => if a = h.next then some n else h.mem a, next := h.next + 1 })

mutual

/-- deepClone (runner part lines 383-400), with fuel against cyclic heaps
(the Go original diverges on cycles): scalars are returned as-is, maps and
slices are rebuilt entry by entry into freshly allocated nodes. -/
def deepCloneVal (fuel : ℕ) (h : GoHeap) (v : GoVal) : Option (GoVal × GoHeap) :=
  match fuel, v with
  | 0, _ => none
  | _ + 1, .scalar s => some (.scalar s, h)
  | f + 1, .ref a =>
    match h.mem a with
    | none => none
    | some (.map entries) =>
      match deepCloneEntries f h entries with
      | none => none
      | some (entries2, h2) =>
        let alloc2 := h2.alloc (.map entries2)
        some (.ref alloc2.1, alloc2.2)
    | some (.arr elems) =>
      match deepCloneElems f h elems with
      | none => none
      | some (elems2, h2) =>
        let alloc2 := h2.alloc (.arr elems2)
        some (.ref alloc2.1, alloc2.2)
termination_by (fuel, 0)

/-- Clone the entries of a map node in order, threading the heap. -/
def deepCloneEntries (fuel : ℕ) (h : GoHeap) (l : List (String × GoVal)) :
    Option (List (String × GoVal) × GoHeap) :=
  match l with
  | [] => some ([], h)
  | (k, v) :: rest =>
    match deepCloneVal fuel h v with
    | none => none
    | some (v2, h2) =>
      match deepCloneEntries fuel h2 rest with
      | none => none
      | some (rest2, h3) => some ((k, v2) :: rest2, h3)
termination_by (fuel, l.length + 1)

/-- Clone the elements of a slice node in order, threading the heap. -/
def deepCloneElems (fuel : ℕ) (h : GoHeap) (l : List GoVal) :
    Option (List GoVal × GoHeap) :=
  match l with
  | [] => some ([], h)
  | v :: rest =>
    match deepCloneVal fuel h v with
    | none => none
    | some (v2, h2) =>
      match deepCloneElems fuel h2 rest with
      | none => none
      | some (rest2, h3) => some ((v2 :: rest2), h3)
termination_by (fuel, l.length + 1)

end

/-- Replace the value stored at key k of a map entry list (Go map
assignment). -/
def setKey (entries : List (String × GoVal)) (k : String) (v : GoVal) :
    List (String × GoVal) :=
  entries.map (fun e => if e.1 = k then (e.1, v) else e)

/-- In-place update of one key of the map node at address a. -/
def writeEntry (h : GoHeap) (a : ℕ) (k : String) (v : GoVal) : GoHeap where
  mem := fun b =>
    if b = a then
      (h.mem a).map fun n =>
        match n with
        | .map entries => .map (setKey entries k v)
        | .arr es => .arr es
    else h.mem b
  next := h.next

mutual

/-- processRecursive (runner part lines 409-428), with fuel: placeholder
strings among the values of a map node are replaced in place by fresh random
scalars (the rng draws are the stream draws, consumed in order via the index
idx); every other value is processed recursively; slices recurse into each
element and scalars are left alone. -/
def processVal (draws : ℕ → GoScalar) (fuel : ℕ) (h : GoHeap) (v : GoVal) (idx : ℕ) :
    Option (GoHeap × ℕ) :=
  match fuel, v with
  | 0, _ => none
  | _ + 1, .scalar _ => some (h, idx)
  | f + 1, .ref a =>
    match h.mem a with
    | none => none
    | some (.map entries) => processMapEntries draws f h a entries idx
    | some (.arr elems) => processElems draws f h elems idx
termination_by (fuel, 0)

/-- The range loop over the snapshot of a map node at address a: placeholder
string values are overwritten at their key, other values are processed
recursively. -/
def processMapEntries (draws : ℕ → GoScalar) (fuel : ℕ) (h : GoHeap) (a : ℕ)
    (l : List (String × GoVal)) (idx : ℕ) : Option (GoHeap × ℕ) :=
  match l with
  | [] => some (h, idx)
  | (k, v) :: rest =>
    match v with
    | .scalar (.str s) =>
      if s = "<int>" ∨ s = "<string>" then
        processMapEntries draws fuel (writeEntry h a k (.scalar (draws idx))) a rest (idx + 1)
      else processMapEntries draws fuel h a rest idx
    | _ =>
      match processVal draws fuel h v idx with
      | none => none
      | some (h2, idx2) => processMapEntries draws fuel h2 a rest idx2
termination_by (fuel, l.length + 1)

/-- The range loop over the elements of a slice node. -/
def processElems (draws : ℕ → GoScalar) (fuel : ℕ) (h : GoHeap) (l : List GoVal)
    (idx : ℕ) : Option (GoHeap × ℕ) :=
  match l with
  | [] => some (h, idx)
  | v :: rest =>
    match processVal draws fuel h v idx with
    | none => none
    | some (h2, idx2) => processElems draws fuel h2 rest idx2
termination_by (fuel, l.length + 1)

end

/-- The values directly held by a node. -/
def nodeVals : GoNode → List GoVal
  | .map entries => entries.map Prod.snd
  | .arr es => es

/-- The heap addresses reachable from a value. -/
inductive Reaches (h : GoHeap) : GoVal → ℕ → Prop where
  | here (a : ℕ) : Reaches h (.ref a) a
  | step (a b : ℕ) (n : GoNode) (v : GoVal) :
      h.mem a = some n → v ∈ nodeVals n → Reaches h v b → Reaches h (.ref a) b

/-- A value whose reference, if any, is at or above the bound. -/
def valHigh (bound : ℕ) : GoVal → Prop
  | .scalar _ => True
  | .ref a => bound ≤ a

/-- All values of a node are at or above the bound. -/
def nodeHigh (bound : ℕ) (n : GoNode) : Prop := ∀ v ∈ nodeVals n, valHigh bound v

/-- Every node at or above the bound points only at or above the bound. -/
def highClosed (h : GoHeap) (bound : ℕ) : Prop :=
  ∀ a n, h.mem a = some n → bound ≤ a → nodeHigh bound n

/-- Conclusion bundle of a deep clone from heap h: existing cells are
untouched, the address space only grows, the result heap is well formed, and
every node at or above the old frontier points only at or above it. -/
def cloneOk (h h2 : GoHeap) : Prop :=
  (∀ a, a < h.next → h2.mem a = h.mem a) ∧ h.next ≤ h2.next ∧
  (∀ a, h2.next ≤ a → h2.mem a = none) ∧
  (∀ a n, h2.mem a = some n → h.next ≤ a → nodeHigh h.next n)

/-- Conclusion bundle of placeholder substitution relative to the bound B:
cells below B are untouched, closure above B is preserved, and nothing is
allocated. -/
def processOk (bound : ℕ) (h h2 : GoHeap) : Prop :=
  (∀ a, a < bound → h2.mem a = h.mem a) ∧ highClosed h2 bound ∧ h2.next = h.next

/-- A one-node template heap: address 0 holds a filter map with one
placeholder entry. -/
def demoHeap : GoHeap where
  mem := fun a => if a = 0 then some (.map [("x", .scalar (.str "<int>"))]) else none
  next := 1

/-- The template value: a reference to the filter map. -/
def demoTemplate : GoVal := .ref 0

/-- The heap after deep-cloning the template: the clone lives at address 1. -/
def demoCloneHeap : GoHeap where
  mem := fun a => if a = 1 then some (.map [("x", .scalar (.str "<int>"))]) else demoHeap.mem a
  next := 2

/-- The heap after substituting the placeholder inside the clone. -/
def demoFinalHeap : GoHeap := writeEntry demoCloneHeap 1 "x" (.scalar (.int 7))

/-! ### Arithmetic helper lemmas for the normalizer -/

lemma goScale_nonneg {v num den : ℤ} (hv : 0 ≤ v) (hn : 0 ≤ num) (hd : 0 ≤ den) :
    0 ≤ goScale v num den :=
  Int.tdiv_nonneg (mul_nonneg hv hn) hd

lemma goScale_eq_ediv {v num den : ℤ} (hv : 0 ≤ v) (hn : 0 ≤ num) (hd : 0 ≤ den) :
    goScale v num den = v * num / den :=
  Int.tdiv_eq_ediv (mul_nonneg hv hn) hd

lemma ediv_add_ediv_le (a b n : ℤ) (hn : 0 < n) : a / n + b / n ≤ (a + b) / n := by
  rw [Int.le_ediv_iff_mul_le hn]
  have ha := Int.emod_nonneg a (ne_of_gt hn)
  have hb := Int.emod_nonneg b (ne_of_gt hn)
  have ha2 := Int.ediv_add_emod a n
  have hb2 := Int.ediv_add_emod b n
  nlinarith

/-- Sum of truncated scalings is at most the scaling of the sum. -/
lemma sum_ediv_le (l : List ℤ) (n d : ℤ) (hd : 0 < d) :
    (l.map (fun v => v * n / d)).sum ≤ l.sum * n / d := by
  induction l with
  | nil => simp
  | cons a t ih =>
    simp only [List.map_cons, List.sum_cons]
    have step := ediv_add_ediv_le (a * n) (t.sum * n) d hd
    have : a * n / d + (t.map (fun v => v * n / d)).sum ≤ a * n / d + t.sum * n / d := by
      linarith
    calc a * n / d + (t.map (fun v => v * n / d)).sum
        ≤ a * n / d + t.sum * n / d := this
      _ ≤ (a * n + t.sum * n) / d := step
      _ = (a + t.sum) * n / d := by ring_nf

lemma ite_nonneg_left (b : Bool) {x : ℤ} (hx : 0 ≤ x) : 0 ≤ if b then x else 0 := by
  cases b <;> simp [hx]

lemma ite_nonneg_right (b : Bool) {x : ℤ} (hx : 0 ≤ x) : 0 ≤ if b then 0 else x := by
  cases b <;> simp [hx]

lemma ite_split_add (b : Bool) (x : ℤ) :
    (if b then x else 0) + (if b then 0 else x) = x := by
  cases b <;> simp

lemma ite_goScale_left (b : Bool) (v num den : ℤ) :
    (if b then goScale v num den else 0) = goScale (if b then v else 0) num den := by
  cases b <;> simp [goScale, Int.zero_tdiv]

lemma ite_goScale_right (b : Bool) (v num den : ℤ) :
    (if b then 0 else goScale v num den) = goScale (if b then 0 else v) num den := by
  cases b <;> simp [goScale, Int.zero_tdiv]

/-- The total of pinned and non-pinned values is the seven-field total. -/
lemma pinned_add_unpinned (p : OpPinned) (c : OpPercents) :
    pinnedTotal p c + unpinnedTotal p c = sumPct c := by
  simp only [pinnedTotal, unpinnedTotal, sumPct]
  have h1 := ite_split_add p.find c.find
  have h2 := ite_split_add p.update c.update
  have h3 := ite_split_add p.delete c.delete
  have h4 := ite_split_add p.insert c.insert
  have h5 := ite_split_add p.aggregate c.aggregate
  have h6 := ite_split_add p.transaction c.transaction
  have h7 := ite_split_add p.bulkInsert c.bulkInsert
  linarith

lemma unpinnedTotal_nonneg (p : OpPinned) (c : OpPercents)
    (hf : 0 ≤ c.find) (hu : 0 ≤ c.update) (hd : 0 ≤ c.delete) (hi : 0 ≤ c.insert)
    (ha : 0 ≤ c.aggregate) (ht : 0 ≤ c.transaction) (hb : 0 ≤ c.bulkInsert) :
    0 ≤ unpinnedTotal p c := by
  have h1 := ite_nonneg_right p.find hf
  have h2 := ite_nonneg_right p.update hu
  have h3 := ite_nonneg_right p.delete hd
  have h4 := ite_nonneg_right p.insert hi
  have h5 := ite_nonneg_right p.aggregate ha
  have h6 := ite_nonneg_right p.transaction ht
  have h7 := ite_nonneg_right p.bulkInsert hb
  simp only [unpinnedTotal]
  linarith

/-- Core invariant of the branch step: with nonnegative inputs, every output
field is nonnegative and the seven-field total is at most 100. -/
lemma normalizeStep_spec (p : OpPinned) (c : OpPercents)
    (hf : 0 ≤ c.find) (hu : 0 ≤ c.update) (hd : 0 ≤ c.delete) (hi : 0 ≤ c.insert)
    (ha : 0 ≤ c.aggregate) (ht : 0 ≤ c.transaction) (hb : 0 ≤ c.bulkInsert) :
    (0 ≤ (normalizeStep p c).find ∧ 0 ≤ (normalizeStep p c).update ∧
     0 ≤ (normalizeStep p c).delete ∧ 0 ≤ (normalizeStep p c).insert ∧
     0 ≤ (normalizeStep p c).aggregate ∧ 0 ≤ (normalizeStep p c).transaction ∧
     0 ≤ (normalizeStep p c).bulkInsert) ∧ sumPct (normalizeStep p c) ≤ 100 := by
  by_cases h1 : (100:ℤ) ≤ pinnedTotal p c
  · by_cases h2 : (100:ℤ) < pinnedTotal p c
    · -- pinnedTotal > 100: non-pinned zeroed, pinned scaled down
      have hres : normalizeStep p c = scalePinnedBy p (pinnedTotal p c) (zeroUnpinned p c) := by
        simp [normalizeStep, h1, h2]
      have hpTpos : 0 < pinnedTotal p c := by linarith
      have e1 : (normalizeStep p c).find = goScale (if p.find then c.find else 0) 100 (pinnedTotal p c) := by
        rw [hres]; cases hp : p.find <;> simp [scalePinnedBy, zeroUnpinned, hp, goScale, Int.zero_tdiv]
      have e2 : (normalizeStep p c).update = goScale (if p.update then c.update else 0) 100 (pinnedTotal p c) := by
        rw [hres]; cases hp : p.update <;> simp [scalePinnedBy, zeroUnpinned, hp, goScale, Int.zero_tdiv]
      have e3 : (normalizeStep p c).delete = goScale (if p.delete then c.delete else 0) 100 (pinnedTotal p c) := by
        rw [hres]; cases hp : p.delete <;> simp [scalePinnedBy, zeroUnpinned, hp, goScale, Int.zero_tdiv]
      have e4 : (normalizeStep p c).insert = goScale (if p.insert then c.insert else 0) 100 (pinnedTotal p c) := by
        rw [hres]; cases hp : p.insert <;> simp [scalePinnedBy, zeroUnpinned, hp, goScale, Int.zero_tdiv]
      have e5 : (normalizeStep p c).aggregate = goScale (if p.aggregate then c.aggregate else 0) 100 (pinnedTotal p c) := by
        rw [hres]; cases hp : p.aggregate <;> simp [scalePinnedBy, zeroUnpinned, hp, goScale, Int.zero_tdiv]
      have e6 : (normalizeStep p c).transaction = goScale (if p.transaction then c.transaction else 0) 100 (pinnedTotal p c) := by
        rw [hres]; cases hp : p.transaction <;> simp [scalePinnedBy, zeroUnpinned, hp, goScale, Int.zero_tdiv]
      have e7 : (normalizeStep p c).bulkInsert = goScale (if p.bulkInsert then c.bulkInsert else 0) 100 (pinnedTotal p c) := by
        rw [hres]; cases hp : p.bulkInsert <;> simp [scalePinnedBy, zeroUnpinned, hp, goScale, Int.zero_tdiv]
      have n1 := ite_nonneg_left p.find hf
      have n2 := ite_nonneg_left p.update hu
      have n3 := ite_nonneg_left p.delete hd
      have n4 := ite_nonneg_left p.insert hi
      have n5 := ite_nonneg_left p.aggregate ha
      have n6 := ite_nonneg_left p.transaction ht
      have n7 := ite_nonneg_left p.bulkInsert hb
      have hh : (0:ℤ) ≤ 100 := by norm_num
      refine ⟨⟨?_, ?_, ?_, ?_, ?_, ?_, ?_⟩, ?_⟩
      · rw [e1]; exact goScale_nonneg n1 hh hpTpos.le
      · rw [e2]; exact goScale_nonneg n2 hh hpTpos.le
      · rw [e3]; exact goScale_nonneg n3 hh hpTpos.le
      · rw [e4]; exact goScale_nonneg n4 hh hpTpos.le
      · rw [e5]; exact goScale_nonneg n5 hh hpTpos.le
      · rw [e6]; exact goScale_nonneg n6 hh hpTpos.le
      · rw [e7]; exact goScale_nonneg n7 hh hpTpos.le
      · have hle := sum_ediv_le [if p.find then c.find else 0, if p.update then c.update else 0,
          if p.delete then c.delete else 0, if p.insert then c.insert else 0,
          if p.aggregate then c.aggregate else 0, if p.transaction then c.transaction else 0,
          if p.bulkInsert then c.bulkInsert else 0] 100 (pinnedTotal p c) hpTpos
        simp only [List.map_cons, List.map_nil, List.sum_cons, List.sum_nil, add_zero] at hle
        have hsum : ((if p.find then c.find else 0) + ((if p.update then c.update else 0) +
            ((if p.delete then c.delete else 0) + ((if p.insert then c.insert else 0) +
            ((if p.aggregate then c.aggregate else 0) + ((if p.transaction then c.transaction else 0) +
            (if p.bulkInsert then c.bulkInsert else 0))))))) = pinnedTotal p c := by
          simp only [pinnedTotal]; ring
        rw [hsum, Int.mul_ediv_cancel_left 100 (ne_of_gt hpTpos)] at hle
        have g1 := goScale_eq_ediv n1 hh hpTpos.le
        have g2 := goScale_eq_ediv n2 hh hpTpos.le
        have g3 := goScale_eq_ediv n3 hh hpTpos.le
        have g4 := goScale_eq_ediv n4 hh hpTpos.le
        have g5 := goScale_eq_ediv n5 hh hpTpos.le
        have g6 := goScale_eq_ediv n6 hh hpTpos.le
        have g7 := goScale_eq_ediv n7 hh hpTpos.le
        simp only [sumPct, e1, e2, e3, e4, e5, e6, e7, g1, g2, g3, g4, g5, g6, g7]
        linarith
    · -- pinnedTotal = 100 exactly: non-pinned zeroed, pinned kept
      have hres : normalizeStep p c = zeroUnpinned p c := by
        simp [normalizeStep, h1, h2]
      have hsum : sumPct (zeroUnpinned p c) = pinnedTotal p c := by
        simp only [sumPct, zeroUnpinned, pinnedTotal]
      have hpT : pinnedTotal p c ≤ 100 := by
        have := not_lt.mp h2; linarith
      rw [hres]
      exact ⟨⟨ite_nonneg_left p.find hf, ite_nonneg_left p.update hu, ite_nonneg_left p.delete hd,
        ite_nonneg_left p.insert hi, ite_nonneg_left p.aggregate ha,
        ite_nonneg_left p.transaction ht, ite_nonneg_left p.bulkInsert hb⟩, by rw [hsum]; exact hpT⟩
  · have hpTlt : pinnedTotal p c < 100 := not_le.mp h1
    have hU0 : 0 ≤ unpinnedTotal p c := unpinnedTotal_nonneg p c hf hu hd hi ha ht hb
    by_cases h3 : 0 < unpinnedTotal p c
    · -- pinnedTotal < 100, positive unpinned total: scale unpinned to remainder
      have hres : normalizeStep p c =
          scaleUnpinnedBy p (100 - pinnedTotal p c) (unpinnedTotal p c) c := by
        simp [normalizeStep, h1, h3]
      have hRpos : 0 < 100 - pinnedTotal p c := by linarith
      have e1 : (normalizeStep p c).find = (if p.find then c.find else 0) +
          goScale (if p.find then 0 else c.find) (100 - pinnedTotal p c) (unpinnedTotal p c) := by
        rw [hres]; cases hp : p.find <;>
          simp [scaleUnpinnedBy, hp, goScale, Int.zero_tdiv]
      have e2 : (normalizeStep p c).update = (if p.update then c.update else 0) +
          goScale (if p.update then 0 else c.update) (100 - pinnedTotal p c) (unpinnedTotal p c) := by
        rw [hres]; cases hp : p.update <;>
          simp [scaleUnpinnedBy, hp, goScale, Int.zero_tdiv]
      have e3 : (normalizeStep p c).delete = (if p.delete then c.delete else 0) +
          goScale (if p.delete then 0 else c.delete) (100 - pinnedTotal p c) (unpinnedTotal p c) := by
        rw [hres]; cases hp : p.delete <;>
          simp [scaleUnpinnedBy, hp, goScale, Int.zero_tdiv]
      have e4 : (normalizeStep p c).insert = (if p.insert then c.insert else 0) +
          goScale (if p.insert then 0 else c.insert) (100 - pinnedTotal p c) (unpinnedTotal p c) := by
        rw [hres]; cases hp : p.insert <;>
          simp [scaleUnpinnedBy, hp, goScale, Int.zero_tdiv]
      have e5 : (normalizeStep p c).aggregate = (if p.aggregate then c.aggregate else 0) +
          goScale (if p.aggregate then 0 else c.aggregate) (100 - pinnedTotal p c) (unpinnedTotal p c) := by
        rw [hres]; cases hp : p.aggregate <;>
          simp [scaleUnpinnedBy, hp, goScale, Int.zero_tdiv]
      have e6 : (normalizeStep p c).transaction = (if p.transaction then c.transaction else 0) +
          goScale (if p.transaction then 0 else c.transaction) (100 - pinnedTotal p c) (unpinnedTotal p c) := by
        rw [hres]; cases hp : p.transaction <;>
          simp [scaleUnpinnedBy, hp, goScale, Int.zero_tdiv]
      have e7 : (normalizeStep p c).bulkInsert = (if p.bulkInsert then c.bulkInsert else 0) +
          goScale (if p.bulkInsert then 0 else c.bulkInsert) (100 - pinnedTotal p c) (unpinnedTotal p c) := by
        rw [hres]; cases hp : p.bulkInsert <;>
          simp [scaleUnpinnedBy, hp, goScale, Int.zero_tdiv]
      have m1 := ite_nonneg_left p.find hf
      have m2 := ite_nonneg_left p.update hu
      have m3 := ite_nonneg_left p.delete hd
      have m4 := ite_nonneg_left p.insert hi
      have m5 := ite_nonneg_left p.aggregate ha
      have m6 := ite_nonneg_left p.transaction ht
      have m7 := ite_nonneg_left p.bulkInsert hb
      have n1 := ite_nonneg_right p.find hf
      have n2 := ite_nonneg_right p.update hu
      have n3 := ite_nonneg_right p.delete hd
      have n4 := ite_nonneg_right p.insert hi
      have n5 := ite_nonneg_right p.aggregate ha
      have n6 := ite_nonneg_right p.transaction ht
      have n7 := ite_nonneg_right p.bulkInsert hb
      refine ⟨⟨?_, ?_, ?_, ?_, ?_, ?_, ?_⟩, ?_⟩
      · rw [e1]; exact add_nonneg m1 (goScale_nonneg n1 hRpos.le hU0)
      · rw [e2]; exact add_nonneg m2 (goScale_nonneg n2 hRpos.le hU0)
      · rw [e3]; exact add_nonneg m3 (goScale_nonneg n3 hRpos.le hU0)
      · rw [e4]; exact add_nonneg m4 (goScale_nonneg n4 hRpos.le hU0)
      · rw [e5]; exact add_nonneg m5 (goScale_nonneg n5 hRpos.le hU0)
      · rw [e6]; exact add_nonneg m6 (goScale_nonneg n6 hRpos.le hU0)
      · rw [e7]; exact add_nonneg m7 (goScale_nonneg n7 hRpos.le hU0)
      · have hle := sum_ediv_le [if p.find then 0 else c.find, if p.update then 0 else c.update,
          if p.delete then 0 else c.delete, if p.insert then 0 else c.insert,
          if p.aggregate then 0 else c.aggregate, if p.transaction then 0 else c.transaction,
          if p.bulkInsert then 0 else c.bulkInsert] (100 - pinnedTotal p c) (unpinnedTotal p c) h3
        simp only [List.map_cons, List.map_nil, List.sum_cons, List.sum_nil, add_zero] at hle
        have hsum : ((if p.find then 0 else c.find) + ((if p.update then 0 else c.update) +
            ((if p.delete then 0 else c.delete) + ((if p.insert then 0 else c.insert) +
            ((if p.aggregate then 0 else c.aggregate) + ((if p.transaction then 0 else c.transaction) +
            (if p.bulkInsert then 0 else c.bulkInsert))))))) = unpinnedTotal p c := by
          simp only [unpinnedTotal]; ring
        rw [hsum, Int.mul_ediv_cancel_left (100 - pinnedTotal p c) (ne_of_gt h3)] at hle
        have g1 := goScale_eq_ediv n1 hRpos.le hU0
        have g2 := goScale_eq_ediv n2 hRpos.le hU0
        have g3 := goScale_eq_ediv n3 hRpos.le hU0
        have g4 := goScale_eq_ediv n4 hRpos.le hU0
        have g5 := goScale_eq_ediv n5 hRpos.le hU0
        have g6 := goScale_eq_ediv n6 hRpos.le hU0
        have g7 := goScale_eq_ediv n7 hRpos.le hU0
        have hpin : (if p.find then c.find else 0) + (if p.update then c.update else 0) +
            (if p.delete then c.delete else 0) + (if p.insert then c.insert else 0) +
            (if p.aggregate then c.aggregate else 0) + (if p.transaction then c.transaction else 0) +
            (if p.bulkInsert then c.bulkInsert else 0) = pinnedTotal p c := by
          simp only [pinnedTotal]
        simp only [sumPct, e1, e2, e3, e4, e5, e6, e7, g1, g2, g3, g4, g5, g6, g7]
        linarith
    · -- pinnedTotal < 100 and all unpinned defaults sum to 0: remainder goes to find
      have hres : normalizeStep p c = { c with find := c.find + (100 - pinnedTotal p c) } := by
        simp [normalizeStep, h1, h3]
      have hUz : unpinnedTotal p c = 0 := le_antisymm (not_lt.mp h3) hU0
      have hcsum := pinned_add_unpinned p c
      rw [hres]
      refine ⟨⟨by simp; linarith, by simpa using hu, by simpa using hd, by simpa using hi,
        by simpa using ha, by simpa using ht, by simpa using hb⟩, ?_⟩
      simp only [sumPct]
      simp only [sumPct] at hcsum
      linarith

lemma finalFix_sum (x : OpPercents) : sumPct (finalFix x) = 100 := by
  simp only [finalFix, sumPct]; ring

lemma finalFix_find (x : OpPercents) : (finalFix x).find = x.find + (100 - sumPct x) := rfl

/-- C1: for any input configuration with nonnegative percentage values (any
subset pinned, totals all-zero, over 100 or under 100), after
normalizePercentages the seven operation percentages sum to exactly 100 and
none of them is negative. -/
theorem normalizePercentages_sum100_nonneg (u : Bool) (p : OpPinned) (c : OpPercents)
    (hf : 0 ≤ c.find) (hu : 0 ≤ c.update) (hd : 0 ≤ c.delete) (hi : 0 ≤ c.insert)
    (ha : 0 ≤ c.aggregate) (ht : 0 ≤ c.transaction) (hb : 0 ≤ c.bulkInsert) :
    sumPct (normalizePercentages u p c) = 100 ∧
    0 ≤ (normalizePercentages u p c).find ∧ 0 ≤ (normalizePercentages u p c).update ∧
    0 ≤ (normalizePercentages u p c).delete ∧ 0 ≤ (normalizePercentages u p c).insert ∧
    0 ≤ (normalizePercentages u p c).aggregate ∧
    0 ≤ (normalizePercentages u p c).transaction ∧
    0 ≤ (normalizePercentages u p c).bulkInsert := by
  cases u with
  | true =>
    obtain ⟨⟨k1, k2, k3, k4, k5, k6, k7⟩, hle⟩ := normalizeStep_spec p c hf hu hd hi ha ht hb
    have hexp : normalizePercentages true p c = finalFix (normalizeStep p c) := rfl
    rw [hexp]
    refine ⟨finalFix_sum _, ?_, k2, k3, k4, k5, k6, k7⟩
    rw [finalFix_find]; linarith
  | false =>
    obtain ⟨⟨k1, k2, k3, k4, k5, k6, k7⟩, hle⟩ :=
      normalizeStep_spec { p with transaction := false } { c with transaction := 0 }
        hf hu hd hi ha (le_refl 0) hb
    have hexp : normalizePercentages false p c =
        finalFix (normalizeStep { p with transaction := false } { c with transaction := 0 }) := rfl
    rw [hexp]
    refine ⟨finalFix_sum _, ?_, k2, k3, k4, k5, k6, k7⟩
    rw [finalFix_find]; linarith

/-- Witness for C1 at a concrete under-100 configuration. -/
theorem normalizePercentages_sum100_nonneg_witness :
    sumPct (normalizePercentages true
      ⟨false, false, false, false, false, false, false⟩ ⟨10, 10, 10, 10, 10, 10, 10⟩) = 100 ∧
    0 ≤ (normalizePercentages true
      ⟨false, false, false, false, false, false, false⟩ ⟨10, 10, 10, 10, 10, 10, 10⟩).find ∧
    0 ≤ (normalizePercentages true
      ⟨false, false, false, false, false, false, false⟩ ⟨10, 10, 10, 10, 10, 10, 10⟩).update ∧
    0 ≤ (normalizePercentages true
      ⟨false, false, false, false, false, false, false⟩ ⟨10, 10, 10, 10, 10, 10, 10⟩).delete ∧
    0 ≤ (normalizePercentages true
      ⟨false, false, false, false, false, false, false⟩ ⟨10, 10, 10, 10, 10, 10, 10⟩).insert ∧
    0 ≤ (normalizePercentages true
      ⟨false, false, false, false, false, false, false⟩ ⟨10, 10, 10, 10, 10, 10, 10⟩).aggregate ∧
    0 ≤ (normalizePercentages true
      ⟨false, false, false, false, false, false, false⟩ ⟨10, 10, 10, 10, 10, 10, 10⟩).transaction ∧
    0 ≤ (normalizePercentages true
      ⟨false, false, false, false, false, false, false⟩ ⟨10, 10, 10, 10, 10, 10, 10⟩).bulkInsert :=
  normalizePercentages_sum100_nonneg true
    ⟨false, false, false, false, false, false, false⟩ ⟨10, 10, 10, 10, 10, 10, 10⟩
    (by decide) (by decide) (by decide) (by decide) (by decide) (by decide) (by decide)

/-- C7: inside normalizePercentages, when the pinned total is at least 100 the
branch step sets every non-pinned percentage to 0, and when the pinned total
strictly exceeds 100 it additionally replaces every pinned percentage by the
integer truncation of value times 100 divided by the pinned total
(config.go lines 336-384, before the final sum correction). -/
theorem normalizeStep_pinned_ge100 (p : OpPinned) (c : OpPercents)
    (h : 100 ≤ pinnedTotal p c) :
    ((p.find = false → (normalizeStep p c).find = 0) ∧
     (p.update = false → (normalizeStep p c).update = 0) ∧
     (p.delete = false → (normalizeStep p c).delete = 0) ∧
     (p.insert = false → (normalizeStep p c).insert = 0) ∧
     (p.aggregate = false → (normalizeStep p c).aggregate = 0) ∧
     (p.transaction = false → (normalizeStep p c).transaction = 0) ∧
     (p.bulkInsert = false → (normalizeStep p c).bulkInsert = 0)) ∧
    (100 < pinnedTotal p c →
     ((p.find = true → (normalizeStep p c).find = goScale c.find 100 (pinnedTotal p c)) ∧
      (p.update = true → (normalizeStep p c).update = goScale c.update 100 (pinnedTotal p c)) ∧
      (p.delete = true → (normalizeStep p c).delete = goScale c.delete 100 (pinnedTotal p c)) ∧
      (p.insert = true → (normalizeStep p c).insert = goScale c.insert 100 (pinnedTotal p c)) ∧
      (p.aggregate = true →
        (normalizeStep p c).aggregate = goScale c.aggregate 100 (pinnedTotal p c)) ∧
      (p.transaction = true →
        (normalizeStep p c).transaction = goScale c.transaction 100 (pinnedTotal p c)) ∧
      (p.bulkInsert = true →
        (normalizeStep p c).bulkInsert = goScale c.bulkInsert 100 (pinnedTotal p c)))) := by
  by_cases h2 : (100:ℤ) < pinnedTotal p c
  · have hres : normalizeStep p c = scalePinnedBy p (pinnedTotal p c) (zeroUnpinned p c) := by
      simp [normalizeStep, h, h2]
    rw [hres]
    constructor
    · exact ⟨fun hp => by simp [scalePinnedBy, zeroUnpinned, hp],
        fun hp => by simp [scalePinnedBy, zeroUnpinned, hp],
        fun hp => by simp [scalePinnedBy, zeroUnpinned, hp],
        fun hp => by simp [scalePinnedBy, zeroUnpinned, hp],
        fun hp => by simp [scalePinnedBy, zeroUnpinned, hp],
        fun hp => by simp [scalePinnedBy, zeroUnpinned, hp],
        fun hp => by simp [scalePinnedBy, zeroUnpinned, hp]⟩
    · intro _
      exact ⟨fun hp => by simp [scalePinnedBy, zeroUnpinned, hp],
        fun hp => by simp [scalePinnedBy, zeroUnpinned, hp],
        fun hp => by simp [scalePinnedBy, zeroUnpinned, hp],
        fun hp => by simp [scalePinnedBy, zeroUnpinned, hp],
        fun hp => by simp [scalePinnedBy, zeroUnpinned, hp],
        fun hp => by simp [scalePinnedBy, zeroUnpinned, hp],
        fun hp => by simp [scalePinnedBy, zeroUnpinned, hp]⟩
  · have hres : normalizeStep p c = zeroUnpinned p c := by
      simp [normalizeStep, h, h2]
    rw [hres]
    exact ⟨⟨fun hp => by simp [zeroUnpinned, hp], fun hp => by simp [zeroUnpinned, hp],
      fun hp => by simp [zeroUnpinned, hp], fun hp => by simp [zeroUnpinned, hp],
      fun hp => by simp [zeroUnpinned, hp], fun hp => by simp [zeroUnpinned, hp],
      fun hp => by simp [zeroUnpinned, hp]⟩, fun hlt => absurd hlt h2⟩

/-- Witness for C7 at a concrete over-100 pinned configuration. -/
theorem normalizeStep_pinned_ge100_witness :
    (100 ≤ pinnedTotal ⟨true, true, false, false, false, false, false⟩
      ⟨150, 50, 3, 0, 0, 0, 0⟩) ∧
    (((⟨true, true, false, false, false, false, false⟩ : OpPinned).delete = false →
      (normalizeStep ⟨true, true, false, false, false, false, false⟩
        ⟨150, 50, 3, 0, 0, 0, 0⟩).delete = 0) →
     True) ∧
    ((normalizeStep ⟨true, true, false, false, false, false, false⟩
        ⟨150, 50, 3, 0, 0, 0, 0⟩).delete = 0 ∧
     (normalizeStep ⟨true, true, false, false, false, false, false⟩
        ⟨150, 50, 3, 0, 0, 0, 0⟩).find =
       goScale 150 100 (pinnedTotal ⟨true, true, false, false, false, false, false⟩
        ⟨150, 50, 3, 0, 0, 0, 0⟩)) := by
  have h100 : (100:ℤ) ≤ pinnedTotal ⟨true, true, false, false, false, false, false⟩
      ⟨150, 50, 3, 0, 0, 0, 0⟩ := by decide
  have hmain := normalizeStep_pinned_ge100 ⟨true, true, false, false, false, false, false⟩
    ⟨150, 50, 3, 0, 0, 0, 0⟩ h100
  refine ⟨h100, fun _ => trivial, hmain.1.2.2.1 rfl, ?_⟩
  exact (hmain.2 (by decide)).1 rfl

/-! ### Record projection lemmas -/

lemma Record_Count (h : LatencyHistogram) (ms : ℚ) : (h.Record ms).Count = h.Count + 1 := by
  unfold LatencyHistogram.Record; dsimp only; split <;> rfl

lemma Record_Max (h : LatencyHistogram) (ms : ℚ) :
    (h.Record ms).Max = if h.Max < ms then ms else h.Max := by
  unfold LatencyHistogram.Record; dsimp only; split <;> rfl

lemma Record_Overflow (h : LatencyHistogram) (ms : ℚ) :
    (h.Record ms).Overflow =
      h.Overflow + (if (MaxLatencyBin : ℤ) ≤ bucketOf ms then 1 else 0) := by
  unfold LatencyHistogram.Record; dsimp only; split <;> simp_all

lemma Record_Buckets (h : LatencyHistogram) (ms : ℚ) (i : ℕ) :
    (h.Record ms).Buckets i =
      h.Buckets i +
        (if bucketOf ms < (MaxLatencyBin : ℤ) ∧ i = (bucketOf ms).toNat then 1 else 0) := by
  unfold LatencyHistogram.Record; dsimp only
  split
  next h1 =>
    have hno : ¬ (bucketOf ms < (MaxLatencyBin : ℤ) ∧ i = (bucketOf ms).toNat) := by
      intro hcon; exact absurd h1 (not_le.mpr hcon.1)
    simp [hno]
  next h1 =>
    have hlt : bucketOf ms < (MaxLatencyBin : ℤ) := not_le.mp h1
    by_cases hi : i = (bucketOf ms).toNat
    · simp [hi, hlt]
    · simp [hi, hlt]

/-! ### C2 and C3: transaction and worker-iteration recording -/

/-- C2 counterexample: a transaction block whose inner operations all succeed
leaves the collector completely unchanged, because Collector.Track has no
case for the "transaction" operation kind; nothing is recorded. -/
theorem runTransaction_committed_not_recorded :
    runTransaction [none, none] NewCollector 5000000 = NewCollector := rfl

/-- C2 amended: if any inner operation fails, the transaction aborts and the
collector is untouched; if all succeed, Track is invoked once with kind
"transaction" and the total elapsed time, but Collector.Track ignores that
kind, so the collector is unchanged in every case. -/
theorem runTransaction_stats (results : List (Option String)) (c : Collector) (ns : ℤ) :
    ((firstError results).isSome = true → runTransaction results c ns = c) ∧
    (firstError results = none →
      runTransaction results c ns = Collector.Track c "transaction" ns) ∧
    Collector.Track c "transaction" ns = c := by
  have htrack : Collector.Track c "transaction" ns = c := by
    simp [Collector.Track]
  refine ⟨?_, ?_, htrack⟩
  · intro hs
    cases hfe : firstError results with
    | some e => simp [runTransaction, hfe]
    | none => rw [hfe] at hs; simp at hs
  · intro hn
    simp [runTransaction, hn]

/-- Witness for C2 amended: one aborted and one committed concrete
transaction. -/
theorem runTransaction_stats_witness :
    (firstError [some "boom"]).isSome = true ∧
    runTransaction [some "boom"] NewCollector 7 = NewCollector ∧
    firstError [none] = none ∧
    runTransaction [none] NewCollector 7 = Collector.Track NewCollector "transaction" 7 :=
  ⟨rfl, (runTransaction_stats [some "boom"] NewCollector 7).1 rfl,
   rfl, (runTransaction_stats [none] NewCollector 7).2.1 rfl⟩

/-- C3 counterexample: a find operation whose database call fails is still
recorded: the worker iteration increments the find counter and the find
latency histogram, so the collector does change. -/
theorem workerIteration_error_recorded :
    (workerIteration "find" (some "network error") NewCollector 3000000).FindOps = 1 ∧
    (workerIteration "find" (some "network error") NewCollector 3000000).FindHist.Count = 1 ∧
    workerIteration "find" (some "network error") NewCollector 3000000 ≠ NewCollector := by
  have h1 : (workerIteration "find" (some "network error") NewCollector 3000000).FindOps = 1 := by
    simp [workerIteration, Collector.Track, NewCollector]
  have h2 : (workerIteration "find" (some "network error") NewCollector 3000000).FindHist.Count
      = 1 := by
    simp [workerIteration, Collector.Track, NewCollector, Record_Count, emptyHistogram]
  refine ⟨h1, h2, fun hcon => ?_⟩
  have := congrArg Collector.FindOps hcon
  rw [h1] at this
  simp [NewCollector] at this

/-- C3 amended: the continuous worker loop records every iteration in the
collector, whether or not the database call failed; errors are only logged
and Track runs unconditionally with the resolved operation kind. -/
theorem workerIteration_always_tracks (opType : String) (outcome : Option String)
    (c : Collector) (ns : ℤ) :
    workerIteration opType outcome c ns = Collector.Track c opType ns ∧
    (workerIteration "find" outcome c ns).FindOps = c.FindOps + 1 ∧
    (workerIteration "find" outcome c ns).FindHist.Count = c.FindHist.Count + 1 := by
  refine ⟨?_, ?_, ?_⟩
  · cases outcome <;> rfl
  · cases outcome <;> simp [workerIteration, Collector.Track]
  · cases outcome <;> simp [workerIteration, Collector.Track, Record_Count]

/-! ### Percentile loop lemmas -/

lemma percentileLoop_ge (b : ℕ → ℤ) (t : ℤ) :
    ∀ (fuel i : ℕ) (cum : ℤ), i + fuel ≤ MaxLatencyBin →
      (i : ℚ) ≤ percentileLoop b t i cum fuel := by
  intro fuel
  induction fuel with
  | zero =>
    intro i cum hle
    have hi : i ≤ MaxLatencyBin := by omega
    simp only [percentileLoop]
    exact_mod_cast hi
  | succ n ih =>
    intro i cum hle
    simp only [percentileLoop]
    split
    · exact le_refl _
    · calc (i : ℚ) ≤ ((i + 1 : ℕ) : ℚ) := by exact_mod_cast Nat.le_succ i
        _ ≤ percentileLoop b t (i + 1) (cum + b i) n := ih (i + 1) _ (by omega)

lemma percentileLoop_mono (b : ℕ → ℤ) {t1 t2 : ℤ} (ht : t1 ≤ t2) :
    ∀ (fuel i : ℕ) (cum : ℤ), i + fuel ≤ MaxLatencyBin →
      percentileLoop b t1 i cum fuel ≤ percentileLoop b t2 i cum fuel := by
  intro fuel
  induction fuel with
  | zero => intro i cum h; simp [percentileLoop]
  | succ n ih =>
    intro i cum h
    simp only [percentileLoop]
    by_cases h2 : t2 ≤ cum + b i
    · have h1 : t1 ≤ cum + b i := le_trans ht h2
      rw [if_pos h1, if_pos h2]
    · rw [if_neg h2]
      by_cases h1 : t1 ≤ cum + b i
      · rw [if_pos h1]
        calc (i : ℚ) ≤ ((i + 1 : ℕ) : ℚ) := by exact_mod_cast Nat.le_succ i
          _ ≤ percentileLoop b t2 (i + 1) (cum + b i) n :=
            percentileLoop_ge b t2 n (i + 1) _ (by omega)
      · rw [if_neg h1]; exact ih (i + 1) _ (by omega)

lemma percentileLoop_cases (b : ℕ → ℤ) (t : ℤ) :
    ∀ (fuel i : ℕ) (cum : ℤ), cum < t →
      (percentileLoop b t i cum fuel = (MaxLatencyBin : ℚ) ∧ cum + sumFrom b i fuel < t) ∨
      ∃ j, i ≤ j ∧ j < i + fuel ∧ 0 < b j ∧ percentileLoop b t i cum fuel = (j : ℚ) := by
  intro fuel
  induction fuel with
  | zero =>
    intro i cum h
    left
    exact ⟨rfl, by simpa [sumFrom] using h⟩
  | succ n ih =>
    intro i cum hcum
    simp only [percentileLoop]
    by_cases hif : t ≤ cum + b i
    · right
      refine ⟨i, le_rfl, by omega, by linarith, ?_⟩
      rw [if_pos hif]
    · have hcum2 : cum + b i < t := not_le.mp hif
      rcases ih (i + 1) (cum + b i) hcum2 with ⟨heq, hsum⟩ | ⟨j, hj1, hj2, hj3, hj4⟩
      · left
        refine ⟨by rw [if_neg hif]; exact heq, ?_⟩
        simp only [sumFrom]; linarith
      · right
        exact ⟨j, by omega, by omega, hj3, by rw [if_neg hif]; exact hj4⟩

lemma GetPercentile_mono (h : LatencyHistogram) (hc : 0 ≤ h.Count) {p q : ℚ} (hpq : p ≤ q) :
    h.GetPercentile p ≤ h.GetPercentile q := by
  by_cases h0 : h.Count = 0
  · simp [LatencyHistogram.GetPercentile, h0]
  · simp only [LatencyHistogram.GetPercentile, if_neg h0]
    have hcast : (0 : ℚ) ≤ (h.Count : ℚ) := by exact_mod_cast hc
    have hdiv : p / 100 ≤ q / 100 := by linarith
    have hmul : p / 100 * (h.Count : ℚ) ≤ q / 100 * (h.Count : ℚ) :=
      mul_le_mul_of_nonneg_right hdiv hcast
    exact percentileLoop_mono h.Buckets (Int.ceil_le_ceil hmul) MaxLatencyBin 0 0 (by omega)

/-! ### Rounding and bucket lemmas -/

lemma goRound_le (q : ℚ) : (goRound q : ℚ) ≤ q + 1 / 2 := by
  unfold goRound
  split
  · exact_mod_cast Int.floor_le (q + 1 / 2)
  · have hlt := Int.ceil_lt_add_one (q - 1 / 2)
    linarith

lemma bucketOf_nonneg (ms : ℚ) : 0 ≤ bucketOf ms := by
  unfold bucketOf
  dsimp only
  split <;> omega

lemma bucketOf_pos_eq (ms : ℚ) (h : 0 < bucketOf ms) : goRound ms = bucketOf ms := by
  by_cases hlt : goRound ms < 0
  · exfalso
    have hb : bucketOf ms = 0 := by simp [bucketOf, hlt]
    omega
  · simp [bucketOf, hlt]

/-! ### Bucket sum lemmas -/

lemma sumFrom_zero_fn : ∀ (n i : ℕ), sumFrom (fun _ => (0 : ℤ)) i n = 0 := by
  intro n
  induction n with
  | zero => intro i; rfl
  | succ m ih => intro i; simp [sumFrom, ih]

lemma sumFrom_congr (b b2 : ℕ → ℤ) (hbb : ∀ i, b i = b2 i) :
    ∀ (n i : ℕ), sumFrom b i n = sumFrom b2 i n := by
  intro n
  induction n with
  | zero => intro i; rfl
  | succ m ih => intro i; simp [sumFrom, hbb, ih]

lemma sumFrom_update (b : ℕ → ℤ) (idx : ℕ) :
    ∀ (n i : ℕ), sumFrom (fun k => if k = idx then b k + 1 else b k) i n =
      sumFrom b i n + (if i ≤ idx ∧ idx < i + n then 1 else 0) := by
  intro n
  induction n with
  | zero =>
    intro i
    simp only [sumFrom, Nat.add_zero]
    have hfalse : ¬ (i ≤ idx ∧ idx < i) := by omega
    simp [hfalse]
  | succ m ih =>
    intro i
    simp only [sumFrom, ih (i + 1)]
    split_ifs <;> omega

/-! ### Histogram reachability invariant -/

lemma histInv_empty : histInv emptyHistogram := by
  refine ⟨le_refl 0, fun i => le_refl 0, fun i _ hpos => absurd hpos (by simp [emptyHistogram]),
    fun hpos => absurd hpos (by simp [emptyHistogram]), ?_, le_refl 0⟩
  simp [emptyHistogram, sumFrom_zero_fn]

lemma histInv_record (h : LatencyHistogram) (ms : ℚ) (hinv : histInv h) :
    histInv (h.Record ms) := by
  obtain ⟨hmax, hbpos, hbbound, hobound, hsum, hcount⟩ := hinv
  have hmax2 : h.Max ≤ (h.Record ms).Max := by
    rw [Record_Max]; split
    · next hx => exact le_of_lt hx
    · exact le_refl _
  have hms2 : ms ≤ (h.Record ms).Max := by
    rw [Record_Max]; split
    · exact le_refl _
    · next hx => exact not_lt.mp hx
  have hmaxnn : 0 ≤ (h.Record ms).Max := le_trans hmax hmax2
  refine ⟨hmaxnn, ?_, ?_, ?_, ?_, ?_⟩
  · intro i
    rw [Record_Buckets]
    have := hbpos i
    split_ifs <;> omega
  · intro i hi hpos
    rw [Record_Buckets] at hpos
    by_cases hc : bucketOf ms < (MaxLatencyBin : ℤ) ∧ i = (bucketOf ms).toNat
    · rcases Nat.eq_zero_or_pos i with hz | hip
      · subst hz
        push_cast
        linarith
      · have hbnn : 0 ≤ bucketOf ms := bucketOf_nonneg ms
        have hieq : bucketOf ms = (i : ℤ) := by
          have := hc.2
          omega
        have hgpos : 0 < bucketOf ms := by omega
        have hg : goRound ms = (i : ℤ) := by rw [bucketOf_pos_eq ms hgpos, hieq]
        have hle := goRound_le ms
        rw [hg] at hle
        push_cast at hle
        linarith
    · have hpos2 : 0 < h.Buckets i := by
        rw [if_neg hc] at hpos
        omega
      have := hbbound i hi hpos2
      linarith
  · intro ho
    rw [Record_Overflow] at ho
    by_cases hc : (MaxLatencyBin : ℤ) ≤ bucketOf ms
    · have hbnn : 0 ≤ bucketOf ms := bucketOf_nonneg ms
      have hgpos : 0 < bucketOf ms := by
        have : (0 : ℤ) < MaxLatencyBin := by norm_num [MaxLatencyBin]
        omega
      have hg := bucketOf_pos_eq ms hgpos
      have hle := goRound_le ms
      rw [hg] at hle
      have hcast : (MaxLatencyBin : ℚ) ≤ (bucketOf ms : ℚ) := by exact_mod_cast hc
      linarith
    · rw [if_neg hc, add_zero] at ho
      exact le_trans (hobound ho) (by linarith)
  · rw [Record_Count]
    by_cases hc : (MaxLatencyBin : ℤ) ≤ bucketOf ms
    · have hov : (h.Record ms).Overflow = h.Overflow + 1 := by
        rw [Record_Overflow, if_pos hc]
      have hbk : ∀ i, (h.Record ms).Buckets i = h.Buckets i := by
        intro i
        rw [Record_Buckets]
        have hno : ¬ (bucketOf ms < (MaxLatencyBin : ℤ) ∧ i = (bucketOf ms).toNat) := by
          intro hcon; exact absurd hc (not_le.mpr hcon.1)
        rw [if_neg hno, add_zero]
      have hseq := sumFrom_congr _ _ hbk MaxLatencyBin 0
      rw [hseq, hov]
      omega
    · have hlt : bucketOf ms < (MaxLatencyBin : ℤ) := not_le.mp hc
      have hov : (h.Record ms).Overflow = h.Overflow := by
        rw [Record_Overflow, if_neg hc, add_zero]
      have hbk : ∀ i, (h.Record ms).Buckets i =
          (fun k => if k = (bucketOf ms).toNat then h.Buckets k + 1 else h.Buckets k) i := by
        intro i
        rw [Record_Buckets]
        by_cases hk : i = (bucketOf ms).toNat
        · simp [hk, hlt]
        · simp [hk]
      have hseq := sumFrom_congr _ _ hbk MaxLatencyBin 0
      rw [hseq, sumFrom_update h.Buckets ((bucketOf ms).toNat) MaxLatencyBin 0, hov]
      have hbnn : 0 ≤ bucketOf ms := bucketOf_nonneg ms
      have hrange : 0 ≤ (bucketOf ms).toNat ∧ (bucketOf ms).toNat < 0 + MaxLatencyBin := by
        omega
      rw [if_pos hrange]
      omega
  · rw [Record_Count]
    omega

lemma histInv_recordAll (l : List ℚ) : ∀ h, histInv h → histInv (recordAll h l) := by
  induction l with
  | nil => intro h hh; exact hh
  | cons a t ih =>
    intro h hh
    exact ih _ (histInv_record h a hh)

/-! ### C5 and C10: percentile ordering and bucket partition -/

/-- C5 counterexample: after recording the single latency 4.5 ms, the value
rounds into bucket 5, GetPercentile 99 returns 5, and the recorded maximum is
4.5, so GetPercentile 99 exceeds Max. -/
theorem percentile_above_max_counterexample :
    ¬ ((recordAll emptyHistogram [9 / 2]).GetPercentile 99 ≤
        (recordAll emptyHistogram [9 / 2]).Max) := by
  have hrec : recordAll emptyHistogram [9 / 2] = emptyHistogram.Record (9 / 2) := rfl
  have hround : goRound (9 / 2) = 5 := by
    unfold goRound
    rw [if_pos (by norm_num)]
    norm_num
  have hbucket : bucketOf (9 / 2) = 5 := by
    unfold bucketOf
    rw [hround]
    norm_num
  have hmax : (emptyHistogram.Record (9 / 2)).Max = 9 / 2 := by
    rw [Record_Max]
    simp only [emptyHistogram]
    norm_num
  have hcount : (emptyHistogram.Record (9 / 2)).Count = 1 := by
    rw [Record_Count]
    simp [emptyHistogram]
  have hbuckets : (emptyHistogram.Record (9 / 2)).Buckets =
      fun i => if i = 5 then (1 : ℤ) else 0 := by
    funext i
    rw [Record_Buckets, hbucket]
    simp only [emptyHistogram]
    by_cases hi : i = 5
    · subst hi
      have hcond : (5 : ℤ) < (MaxLatencyBin : ℤ) ∧ (5 : ℕ) = (5 : ℤ).toNat :=
        ⟨by norm_num [MaxLatencyBin], rfl⟩
      rw [if_pos hcond, if_pos rfl]
      norm_num
    · have : ¬ ((5 : ℤ) < (MaxLatencyBin : ℤ) ∧ i = (5 : ℤ).toNat) := by
        intro hcon
        exact hi (by simpa using hcon.2)
      simp [this, hi]
  have key : ∀ (fuel i : ℕ), i ≤ 5 → 5 < i + fuel →
      percentileLoop (fun k => if k = 5 then (1 : ℤ) else 0) 1 i 0 fuel = 5 := by
    intro fuel
    induction fuel with
    | zero => intro i h1 h2; omega
    | succ n ih =>
      intro i h1 h2
      simp only [percentileLoop]
      by_cases hi : i = 5
      · subst hi
        norm_num
      · simp only [hi, if_false, zero_add]
        rw [if_neg (by norm_num)]
        exact ih (i + 1) (by omega) (by omega)
  have hget : (emptyHistogram.Record (9 / 2)).GetPercentile 99 = 5 := by
    simp only [LatencyHistogram.GetPercentile, hcount, hbuckets]
    rw [if_neg (by norm_num)]
    have htarget : ⌈(99 : ℚ) / 100 * ((1 : ℤ) : ℚ)⌉ = 1 := by
      push_cast
      rw [Int.ceil_eq_iff]
      norm_num
    rw [htarget]
    exact key MaxLatencyBin 0 (by norm_num) (by norm_num [MaxLatencyBin])
  rw [hrec, hget, hmax]
  norm_num

/-- C5 amended: for every sequence of recorded latencies, GetPercentile is
monotone across the 50, 95 and 99 percentiles, and GetPercentile 99 is at
most the recorded maximum plus one half (the half-millisecond slack comes
from rounding each latency to the nearest bucket). -/
theorem percentile_monotone_and_bound (l : List ℚ) :
    (recordAll emptyHistogram l).GetPercentile 50 ≤
      (recordAll emptyHistogram l).GetPercentile 95 ∧
    (recordAll emptyHistogram l).GetPercentile 95 ≤
      (recordAll emptyHistogram l).GetPercentile 99 ∧
    (recordAll emptyHistogram l).GetPercentile 99 ≤
      (recordAll emptyHistogram l).Max + 1 / 2 := by
  obtain ⟨hmax, hbpos, hbbound, hobound, hsum, hcount⟩ :=
    histInv_recordAll l emptyHistogram histInv_empty
  refine ⟨GetPercentile_mono _ hcount (by norm_num),
    GetPercentile_mono _ hcount (by norm_num), ?_⟩
  set h := recordAll emptyHistogram l with hh
  by_cases h0 : h.Count = 0
  · simp only [LatencyHistogram.GetPercentile, if_pos h0]
    linarith
  · simp only [LatencyHistogram.GetPercentile, if_neg h0]
    have hc1 : 1 ≤ h.Count := by omega
    have hcpos : (0 : ℚ) < (h.Count : ℚ) := by exact_mod_cast hc1
    have htpos : 0 < ⌈(99 : ℚ) / 100 * (h.Count : ℚ)⌉ := by
      apply Int.ceil_pos.mpr
      nlinarith
    have htle : ⌈(99 : ℚ) / 100 * (h.Count : ℚ)⌉ ≤ h.Count := by
      apply Int.ceil_le.mpr
      linarith
    rcases percentileLoop_cases h.Buckets ⌈(99 : ℚ) / 100 * (h.Count : ℚ)⌉
        MaxLatencyBin 0 0 htpos with ⟨heq, hlt⟩ | ⟨j, hj0, hjlt, hjpos, hjeq⟩
    · rw [heq]
      have hopos : 0 < h.Overflow := by omega
      exact hobound hopos
    · rw [hjeq]
      exact hbbound j (by omega) hjpos

/-- C10: starting from the initial histogram, after any sequence of Record
calls the count equals the sum of the bucket counters plus the overflow;
each Record call bumps the count by one and increments exactly one of the
bucket counters or the overflow counter, with negative rounded values
clamped to bucket 0 and values rounding to at least MaxLatencyBin counted
in the overflow. -/
theorem record_count_partition (l : List ℚ) :
    sumFrom (recordAll emptyHistogram l).Buckets 0 MaxLatencyBin +
        (recordAll emptyHistogram l).Overflow = (recordAll emptyHistogram l).Count ∧
    (∀ (h : LatencyHistogram) (ms : ℚ),
      (h.Record ms).Count = h.Count + 1 ∧
      (h.Record ms).Overflow =
        h.Overflow + (if (MaxLatencyBin : ℤ) ≤ bucketOf ms then 1 else 0) ∧
      (∀ i : ℕ, (h.Record ms).Buckets i =
        h.Buckets i +
          (if bucketOf ms < (MaxLatencyBin : ℤ) ∧ i = (bucketOf ms).toNat then 1 else 0)) ∧
      bucketOf ms = (if goRound ms < 0 then 0 else goRound ms)) := by
  constructor
  · exact (histInv_recordAll l emptyHistogram histInv_empty).2.2.2.2.1
  · intro h ms
    exact ⟨Record_Count h ms, Record_Overflow h ms, Record_Buckets h ms, rfl⟩

/-! ### C6: weighted operation selector -/

lemma scanl_head_tail (pcts : String → ℤ) (l : List String) (c : ℤ) :
    l.scanl (fun acc op => acc + pcts op) c =
      c :: (l.scanl (fun acc op => acc + pcts op) c).tail := by
  cases l <;> simp [List.scanl]

lemma count_filter_lt90 : ((Finset.range 100).filter (fun n => n < 90)).card = 90 := by
  decide

lemma count_filter_ge90 : ((Finset.range 100).filter (fun n => ¬ n < 90)).card = 10 := by
  decide

/-- The selector loop agrees with the first-bucket characterization built
from prefix sums, for any starting accumulator. -/
lemma selectLoop_eq (pcts : String → ℤ) (r s : ℤ) :
    ∀ (ops : List String) (cum : ℤ),
      selectLoop pcts r s ops cum =
        match (ops.zip ((ops.scanl (fun acc op => acc + pcts op) cum).tail)).find?
            (fun pair => decide (r < pair.2)) with
        | none => "find"
        | some pair =>
          if pair.1 = "update" then (if s < 90 then "updateOne" else "updateMany")
          else if pair.1 = "delete" then (if s < 90 then "deleteOne" else "deleteMany")
          else pair.1 := by
  intro ops
  induction ops with
  | nil => intro cum; simp [selectLoop]
  | cons op rest ih =>
    intro cum
    rw [show ((op :: rest).scanl (fun acc op => acc + pcts op) cum).tail
        = rest.scanl (fun acc op => acc + pcts op) (cum + pcts op) by
      simp [List.scanl_cons]]
    rw [scanl_head_tail pcts rest (cum + pcts op)]
    simp only [List.zip_cons_cons]
    by_cases hr : r < cum + pcts op
    · rw [List.find?_cons_of_pos _ (by simpa using hr)]
      simp only [selectLoop]
      rw [if_pos hr]
    · rw [List.find?_cons_of_neg _ (by simpa using hr)]
      simp only [selectLoop]
      rw [if_neg hr]
      exact ih (cum + pcts op)

/-- C6: selectOperation walks the ordered buckets and returns the first whose
cumulative sum exceeds r (refinement against the spec-side first-bucket
characterization); a nil map and a walk with no match both yield "find"; and
inside a hit update or delete bucket the secondary draw yields the One
variant for exactly 90 of the 100 possible draws and the Many variant for
the other 10. -/
theorem selectOperation_spec (pcts : String → ℤ) (r s : ℤ) :
    selectOperation (some pcts) r s = specSelectOperation pcts r s ∧
    selectOperation none r s = "find" ∧
    ((operationTypes.zip (cumulativeSums pcts operationTypes)).find?
        (fun pair => decide (r < pair.2)) = none →
      selectOperation (some pcts) r s = "find") ∧
    (∀ cumv : ℤ,
      (operationTypes.zip (cumulativeSums pcts operationTypes)).find?
          (fun pair => decide (r < pair.2)) = some ("update", cumv) →
      ((Finset.range 100).filter
          (fun n : ℕ => selectOperation (some pcts) r (n : ℤ) = "updateOne")).card = 90 ∧
      ((Finset.range 100).filter
          (fun n : ℕ => selectOperation (some pcts) r (n : ℤ) = "updateMany")).card = 10) ∧
    (∀ cumv : ℤ,
      (operationTypes.zip (cumulativeSums pcts operationTypes)).find?
          (fun pair => decide (r < pair.2)) = some ("delete", cumv) →
      ((Finset.range 100).filter
          (fun n : ℕ => selectOperation (some pcts) r (n : ℤ) = "deleteOne")).card = 90 ∧
      ((Finset.range 100).filter
          (fun n : ℕ => selectOperation (some pcts) r (n : ℤ) = "deleteMany")).card = 10) := by
  have hmain : ∀ t : ℤ, selectOperation (some pcts) r t = specSelectOperation pcts r t := by
    intro t
    show selectLoop pcts r t operationTypes 0 = _
    rw [selectLoop_eq pcts r t operationTypes 0]
    rfl
  refine ⟨hmain s, rfl, ?_, ?_, ?_⟩
  · intro hnone
    rw [hmain s]
    simp [specSelectOperation, hnone]
  · intro cumv hfind
    have hspec : ∀ t : ℤ, specSelectOperation pcts r t =
        if t < 90 then "updateOne" else "updateMany" := by
      intro t
      unfold specSelectOperation
      rw [hfind]
      simp
    constructor
    · have hcong : ∀ n ∈ Finset.range 100,
          (selectOperation (some pcts) r (n : ℤ) = "updateOne") ↔ (n < 90) := by
        intro n _
        rw [hmain (n : ℤ), hspec (n : ℤ)]
        by_cases h90 : (n : ℤ) < 90
        · rw [if_pos h90]
          simp only [eq_self_iff_true, true_iff]
          exact_mod_cast h90
        · rw [if_neg h90]
          constructor
          · intro hcon; exact absurd hcon (by decide)
          · intro hn90; exact absurd (by exact_mod_cast hn90 : (n : ℤ) < 90) h90
      rw [Finset.filter_congr hcong]
      exact count_filter_lt90
    · have hcong : ∀ n ∈ Finset.range 100,
          (selectOperation (some pcts) r (n : ℤ) = "updateMany") ↔ (¬ n < 90) := by
        intro n _
        rw [hmain (n : ℤ), hspec (n : ℤ)]
        by_cases h90 : (n : ℤ) < 90
        · rw [if_pos h90]
          constructor
          · intro hcon; exact absurd hcon (by decide)
          · intro hn90; exact absurd (by exact_mod_cast h90 : n < 90) hn90
        · rw [if_neg h90]
          simp only [eq_self_iff_true, true_iff]
          intro hn90
          exact h90 (by exact_mod_cast hn90)
      rw [Finset.filter_congr hcong]
      exact count_filter_ge90
  · intro cumv hfind
    have hspec : ∀ t : ℤ, specSelectOperation pcts r t =
        if t < 90 then "deleteOne" else "deleteMany" := by
      intro t
      unfold specSelectOperation
      rw [hfind]
      simp
    constructor
    · have hcong : ∀ n ∈ Finset.range 100,
          (selectOperation (some pcts) r (n : ℤ) = "deleteOne") ↔ (n < 90) := by
        intro n _
        rw [hmain (n : ℤ), hspec (n : ℤ)]
        by_cases h90 : (n : ℤ) < 90
        · rw [if_pos h90]
          simp only [eq_self_iff_true, true_iff]
          exact_mod_cast h90
        · rw [if_neg h90]
          constructor
          · intro hcon; exact absurd hcon (by decide)
          · intro hn90; exact absurd (by exact_mod_cast hn90 : (n : ℤ) < 90) h90
      rw [Finset.filter_congr hcong]
      exact count_filter_lt90
    · have hcong : ∀ n ∈ Finset.range 100,
          (selectOperation (some pcts) r (n : ℤ) = "deleteMany") ↔ (¬ n < 90) := by
        intro n _
        rw [hmain (n : ℤ), hspec (n : ℤ)]
        by_cases h90 : (n : ℤ) < 90
        · rw [if_pos h90]
          constructor
          · intro hcon; exact absurd hcon (by decide)
          · intro hn90; exact absurd (by exact_mod_cast h90 : n < 90) hn90
        · rw [if_neg h90]
          simp only [eq_self_iff_true, true_iff]
          intro hn90
          exact h90 (by exact_mod_cast hn90)
      rw [Finset.filter_congr hcong]
      exact count_filter_ge90

/-- Witness for C6: with find 30, update 40, delete 30 and the primary draw
50, the update bucket is hit and the secondary draw splits 90/10. -/
theorem selectOperation_spec_witness :
    ((Finset.range 100).filter
        (fun n : ℕ => selectOperation (some demoPercents) 50 (n : ℤ) = "updateOne")).card = 90 ∧
    ((Finset.range 100).filter
        (fun n : ℕ => selectOperation (some demoPercents) 50 (n : ℤ) = "updateMany")).card = 10 :=
  (selectOperation_spec demoPercents 50 0).2.2.2.1 70 (by decide)

/-! ### C8: fixed mode runs each configured query once, skipping inserts -/

lemma fixedModeTasks_not_insert (l : List QueryDefinition) :
    ∀ q ∈ fixedModeTasks l, ¬ (q.Operation = "insert" ∨ q.Operation = "insertMany") := by
  induction l with
  | nil => intro q hq; cases hq
  | cons a t ih =>
    intro q hq
    by_cases ha : a.Operation = "insert" ∨ a.Operation = "insertMany"
    · rw [fixedModeTasks, if_pos ha] at hq
      exact ih q hq
    · rw [fixedModeTasks, if_neg ha] at hq
      rcases List.mem_cons.mp hq with rfl | hq2
      · exact ha
      · exact ih q hq2

lemma fixedModeTasks_count (l : List QueryDefinition) (q : QueryDefinition)
    (hq : ¬ (q.Operation = "insert" ∨ q.Operation = "insertMany")) :
    (fixedModeTasks l).count q = l.count q := by
  induction l with
  | nil => rfl
  | cons a t ih =>
    by_cases ha : a.Operation = "insert" ∨ a.Operation = "insertMany"
    · rw [fixedModeTasks, if_pos ha, List.count_cons, ih]
      have hne : ¬ a = q := by
        intro h; rw [h] at ha; exact hq ha
      simp [hne]
    · rw [fixedModeTasks, if_neg ha, List.count_cons, List.count_cons, ih]

/-- C8: when the configured duration parses to a nonpositive value,
RunWorkload runs the fixed mode: every query whose operation is an insert
kind is skipped, every other configured query is sent to the worker exactly
as many times as it is configured (once for a template authored once) and
processed once, and no error is returned. -/
theorem runWorkload_fixed_mode (d : ℤ) (queries : List QueryDefinition) (hd : d ≤ 0) :
    RunWorkload (some d) queries =
      RunOutcome.fixed (queryWorkerOnce (fixedModeTasks queries)) ∧
    RunWorkload (some d) queries ≠ RunOutcome.parseError ∧
    (runAllQueriesOnce queries).2 = none ∧
    (∀ q ∈ queries, (q.Operation = "insert" ∨ q.Operation = "insertMany") →
      q ∉ fixedModeTasks queries) ∧
    (∀ q ∈ queries, ¬ (q.Operation = "insert" ∨ q.Operation = "insertMany") →
      (fixedModeTasks queries).count q = queries.count q) ∧
    (queryWorkerOnce (fixedModeTasks queries)).length = (fixedModeTasks queries).length := by
  have hres : RunWorkload (some d) queries =
      RunOutcome.fixed (queryWorkerOnce (fixedModeTasks queries)) := by
    simp [RunWorkload, runAllQueriesOnce, hd]
  refine ⟨hres, ?_, rfl, ?_, ?_, ?_⟩
  · rw [hres]; intro hcon; cases hcon
  · intro q _ hins hmem
    exact fixedModeTasks_not_insert queries q hmem hins
  · intro q _ hq
    exact fixedModeTasks_count queries q hq
  · exact List.length_map _ _

/-- Witness for C8: duration 0 with three authored templates; the insert
template is dropped and the other two run once each. -/
theorem runWorkload_fixed_mode_witness :
    (0 : ℤ) ≤ 0 ∧
    RunWorkload (some 0) demoQueries =
      RunOutcome.fixed (queryWorkerOnce (fixedModeTasks demoQueries)) ∧
    fixedModeTasks demoQueries =
      [⟨"app", "flights", "find", 5⟩, ⟨"app", "flights", "updateOne", 0⟩] ∧
    queryWorkerOnce (fixedModeTasks demoQueries) =
      [FixedAction.ranFind "flights", FixedAction.ranUpdateOne "flights"] :=
  ⟨le_refl 0, (runWorkload_fixed_mode 0 demoQueries (by decide)).1, by decide, by decide⟩

/-! ### C4: seat uniqueness of the flight-document generator -/

lemma digitsVal_append (xs : List Char) (c : Char) :
    digitsVal (xs ++ [c]) = 10 * digitsVal xs + (c.toNat - 48) := by
  simp [digitsVal, List.foldl_append]

lemma goDigitChar_toNat (n : ℕ) (h : n < 10) : (goDigitChar n).toNat = 48 + n := by
  interval_cases n <;> rfl

lemma goDecimalRepr_eval (n : ℕ) : digitsVal (goDecimalRepr n) = n := by
  induction n using Nat.strong_induction_on with
  | _ n ih =>
    rw [goDecimalRepr]
    split
    · next h =>
      simp only [digitsVal, List.foldl_cons, List.foldl_nil]
      rw [goDigitChar_toNat n h]
      omega
    · next h =>
      rw [digitsVal_append]
      rw [ih (n / 10) (Nat.div_lt_self (by omega) (by norm_num))]
      rw [goDigitChar_toNat (n % 10) (Nat.mod_lt _ (by norm_num))]
      omega

lemma goDecimalRepr_inj {m n : ℕ} (h : goDecimalRepr m = goDecimalRepr n) : m = n := by
  have hv := congrArg digitsVal h
  rwa [goDecimalRepr_eval, goDecimalRepr_eval] at hv

lemma seatName_inj {r1 r2 : ℕ} {l1 l2 : Char} (h : seatName r1 l1 = seatName r2 l2) :
    r1 = r2 ∧ l1 = l2 := by
  have hdata : goDecimalRepr r1 ++ [l1] = goDecimalRepr r2 ++ [l2] := by
    have hd := congrArg String.data h
    simpa [seatName] using hd
  have hrev := congrArg List.reverse hdata
  simp only [List.reverse_append, List.reverse_cons, List.reverse_nil, List.nil_append,
    List.cons_append] at hrev
  injection hrev with hl hr
  refine ⟨goDecimalRepr_inj ?_, hl⟩
  have hr2 := congrArg List.reverse hr
  simpa using hr2

lemma allSeats_length_aux : ∀ (rem row : ℕ), (buildDeck rem row).length = rem := by
  intro rem
  induction rem using Nat.strong_induction_on with
  | _ rem ih =>
    intro row
    rw [buildDeck]
    by_cases h0 : rem = 0
    · simp [h0]
    · rw [if_neg h0]
      rw [List.length_append, List.length_take, List.length_map]
      rw [ih (rem - 6) (by omega) (row + 1)]
      have hsl : seatLetters.length = 6 := rfl
      rw [hsl]
      omega

lemma allSeats_length (n : ℕ) : (allSeats n).length = n := allSeats_length_aux n 1

lemma buildDeck_mem : ∀ (rem row : ℕ) (s : String), s ∈ buildDeck rem row →
    ∃ r l, row ≤ r ∧ l ∈ seatLetters ∧ s = seatName r l := by
  intro rem
  induction rem using Nat.strong_induction_on with
  | _ rem ih =>
    intro row s hs
    rw [buildDeck] at hs
    by_cases h0 : rem = 0
    · rw [if_pos h0] at hs
      cases hs
    · rw [if_neg h0] at hs
      rcases List.mem_append.mp hs with hs1 | hs2
      · have hs3 := List.take_subset _ _ hs1
        obtain ⟨l, hl, hsl⟩ := List.mem_map.mp hs3
        exact ⟨row, l, le_refl row, hl, hsl.symm⟩
      · obtain ⟨r, l, hr, hl, hsl⟩ := ih (rem - 6) (by omega) (row + 1) s hs2
        exact ⟨r, l, by omega, hl, hsl⟩

lemma buildDeck_nodup : ∀ (rem row : ℕ), (buildDeck rem row).Nodup := by
  intro rem
  induction rem using Nat.strong_induction_on with
  | _ rem ih =>
    intro row
    rw [buildDeck]
    by_cases h0 : rem = 0
    · simp [h0]
    · rw [if_neg h0]
      apply List.Nodup.append
      · apply (List.take_sublist _ _).nodup
        apply List.Nodup.map
        · intro a b hab
          exact (seatName_inj hab).2
        · decide
      · exact ih (rem - 6) (by omega) (row + 1)
      · intro s hs1 hs2
        have hs3 := List.take_subset _ _ hs1
        obtain ⟨l, _, hsl⟩ := List.mem_map.mp hs3
        obtain ⟨r, l2, hr, _, hsl2⟩ := buildDeck_mem (rem - 6) (row + 1) s hs2
        have heq := (seatName_inj (hsl.trans hsl2)).1
        omega

lemma allSeats_nodup (n : ℕ) : (allSeats n).Nodup := buildDeck_nodup n 1

lemma map_range_getD {α : Type} (l : List α) (d : α) :
    ∀ n, n ≤ l.length → (List.range n).map (fun i => l.getD i d) = l.take n := by
  intro n
  induction n with
  | zero => intro h; simp
  | succ m ih =>
    intro h
    rw [List.range_succ, List.map_append, ih (by omega)]
    simp only [List.map_cons, List.map_nil]
    have hm : m < l.length := by omega
    rw [List.take_succ]
    have hsome : l[m]? = some l[m] := List.getElem?_eq_getElem hm
    simp [List.getD_eq_getElem?_getD, hsome]

/-- C4: every passenger list of the flight-document generator has pairwise
distinct seat numbers, and its size is total_seats - seats_available clamped
below by 1 and above by total_seats; GenerateDefaultDocument produces its
passengers through randomPassengers after its own seat-consistency fixups.
The shuffle hypothesis is the contract of rng.Shuffle: it permutes the
deck. -/
theorem randomPassengers_unique_seats (totalSeats seatsAvailable : ℤ)
    (shuffle : List String → List String) (name ticket : ℕ → String)
    (hsh : (shuffle (allSeats totalSeats.toNat)).Perm (allSeats totalSeats.toNat)) :
    ((randomPassengers totalSeats seatsAvailable shuffle name ticket).map
        Passenger.seatNumber).Nodup ∧
    (randomPassengers totalSeats seatsAvailable shuffle name ticket).length =
      (min (max (totalSeats - seatsAvailable) 1) totalSeats).toNat ∧
    (∀ ts0 sa0 rd : ℤ,
      generateDefaultDocPassengers ts0 sa0 rd shuffle name ticket =
        randomPassengers (if ts0 = 0 then maxTotalSeats else ts0)
          (if sa0 > (if ts0 = 0 then maxTotalSeats else ts0) then rd else sa0)
          shuffle name ticket) := by
  have hN : (if (if totalSeats - seatsAvailable < 1 then 1 else totalSeats - seatsAvailable) >
        totalSeats then totalSeats
      else (if totalSeats - seatsAvailable < 1 then 1 else totalSeats - seatsAvailable)) =
      min (max (totalSeats - seatsAvailable) 1) totalSeats := by
    split_ifs <;> omega
  have hdecklen : (shuffle (allSeats totalSeats.toNat)).length = totalSeats.toNat := by
    rw [hsh.length_eq, allSeats_length]
  have hseats : (randomPassengers totalSeats seatsAvailable shuffle name ticket).map
      Passenger.seatNumber =
      (shuffle (allSeats totalSeats.toNat)).take
        (min (max (totalSeats - seatsAvailable) 1) totalSeats).toNat := by
    simp only [randomPassengers, List.map_map]
    rw [hN]
    rw [show (Passenger.seatNumber ∘ fun (i : ℕ) =>
        ({ passengerId := (i : ℤ) + 1, name := name i, ticketNumber := ticket i,
           seatNumber := (shuffle (allSeats totalSeats.toNat)).getD i "" } : Passenger)) =
        fun (i : ℕ) => (shuffle (allSeats totalSeats.toNat)).getD i "" from rfl]
    exact map_range_getD _ _ _ (by omega)
  refine ⟨?_, ?_, fun ts0 sa0 rd => rfl⟩
  · rw [hseats]
    apply (List.take_sublist _ _).nodup
    exact (hsh.nodup_iff).mpr (allSeats_nodup _)
  · simp only [randomPassengers, List.length_map, List.length_range]
    rw [hN]

/-- Witness for C4: three seats, one available, identity shuffle — two
passengers on distinct seats. -/
theorem randomPassengers_unique_seats_witness :
    ((randomPassengers 3 1 id (fun _ => "pn") (fun _ => "tk")).map
        Passenger.seatNumber).Nodup ∧
    (randomPassengers 3 1 id (fun _ => "pn") (fun _ => "tk")).length = 2 := by
  have hperm : (id (allSeats (3 : ℤ).toNat)).Perm (allSeats (3 : ℤ).toNat) :=
    List.Perm.refl _
  have hthm := randomPassengers_unique_seats 3 1 id (fun _ => "pn") (fun _ => "tk") hperm
  refine ⟨hthm.1, ?_⟩
  rw [hthm.2.1]
  omega

/-! ### C9: frame lemmas for deep clone and placeholder substitution -/

lemma valHigh_mono {b1 b2 : ℕ} (hb : b1 ≤ b2) {v : GoVal} (hv : valHigh b2 v) :
    valHigh b1 v := by
  cases v with
  | scalar s => trivial
  | ref a => exact le_trans hb hv

lemma nodeHigh_mono {b1 b2 : ℕ} (hb : b1 ≤ b2) {n : GoNode} (hn : nodeHigh b2 n) :
    nodeHigh b1 n := fun v hv => valHigh_mono hb (hn v hv)

lemma cloneOk_refl (h : GoHeap) (hwf : ∀ a, h.next ≤ a → h.mem a = none) :
    cloneOk h h := by
  refine ⟨fun a _ => rfl, le_refl _, hwf, fun a n hmem ha => ?_⟩
  rw [hwf a ha] at hmem
  cases hmem

lemma cloneOk_trans {h hA hB : GoHeap} (h1 : cloneOk h hA) (h2 : cloneOk hA hB) :
    cloneOk h hB := by
  obtain ⟨e1, n1, w1, g1⟩ := h1
  obtain ⟨e2, n2, w2, g2⟩ := h2
  refine ⟨?_, le_trans n1 n2, w2, ?_⟩
  · intro a ha
    rw [e2 a (lt_of_lt_of_le ha n1), e1 a ha]
  · intro a n hmem ha
    by_cases hlt : a < hA.next
    · rw [e2 a hlt] at hmem
      exact g1 a n hmem ha
    · exact nodeHigh_mono n1 (g2 a n hmem (by omega))

lemma cloneOk_alloc {h hA : GoHeap} (node : GoNode) (h1 : cloneOk h hA)
    (hnode : nodeHigh h.next node) :
    cloneOk h (hA.alloc node).2 ∧ valHigh h.next (GoVal.ref (hA.alloc node).1) := by
  obtain ⟨e1, n1, w1, g1⟩ := h1
  constructor
  · refine ⟨?_, ?_, ?_, ?_⟩
    · intro a ha
      have hne : a ≠ hA.next := by omega
      simp only [GoHeap.alloc, hne, if_false]
      exact e1 a ha
    · simp only [GoHeap.alloc]
      omega
    · intro a ha
      simp only [GoHeap.alloc] at ha ⊢
      have hne : a ≠ hA.next := by omega
      simp only [hne, if_false]
      exact w1 a (by omega)
    · intro a n hmem ha
      simp only [GoHeap.alloc] at hmem
      by_cases hb : a = hA.next
      · rw [if_pos hb] at hmem
        cases hmem
        exact hnode
      · rw [if_neg hb] at hmem
        exact g1 a n hmem ha
  · exact n1

lemma writeEntry_mem_ne (h : GoHeap) (a : ℕ) (k : String) (v : GoVal) (b : ℕ)
    (hne : b ≠ a) : (writeEntry h a k v).mem b = h.mem b := by
  simp [writeEntry, hne]

lemma writeEntry_next (h : GoHeap) (a : ℕ) (k : String) (v : GoVal) :
    (writeEntry h a k v).next = h.next := rfl

lemma setKey_vals_high {bound : ℕ} {entries : List (String × GoVal)} {k : String}
    {sc : GoScalar} (hh : nodeHigh bound (.map entries)) :
    nodeHigh bound (.map (setKey entries k (.scalar sc))) := by
  intro v hv
  simp only [nodeVals, setKey, List.map_map, List.mem_map, Function.comp_apply] at hv
  obtain ⟨e, he, hev⟩ := hv
  by_cases hk : e.1 = k
  · rw [if_pos hk] at hev
    rw [← hev]
    trivial
  · rw [if_neg hk] at hev
    rw [← hev]
    exact hh e.2 (by simp only [nodeVals, List.mem_map]; exact ⟨e, he, rfl⟩)

lemma writeEntry_mem_self (h : GoHeap) (a : ℕ) (k : String) (v : GoVal) :
    (writeEntry h a k v).mem a = (h.mem a).map fun n =>
      match n with
      | .map entries => .map (setKey entries k v)
      | .arr es => .arr es := by
  simp [writeEntry]

lemma writeEntry_highClosed {bound : ℕ} {h : GoHeap} {a : ℕ} {k : String}
    {sc : GoScalar} (hB : bound ≤ a) (hcl : highClosed h bound) :
    highClosed (writeEntry h a k (.scalar sc)) bound := by
  intro b n hmem hBb
  by_cases hb : b = a
  · subst hb
    rw [writeEntry_mem_self] at hmem
    cases hold : h.mem b with
    | none => rw [hold] at hmem; cases hmem
    | some oldn =>
      rw [hold] at hmem
      cases oldn with
      | map entries =>
        cases hmem
        exact setKey_vals_high (hcl b (.map entries) hold hBb)
      | arr es =>
        cases hmem
        exact hcl b (.arr es) hold hBb
  · rw [writeEntry_mem_ne h a k _ b hb] at hmem
    exact hcl b n hmem hBb

/-- Frame and freshness bundle of the deep clone: existing cells are
untouched and the cloned value lives entirely in freshly allocated cells. -/
lemma cloneSpec : ∀ fuel : ℕ,
    (∀ h v v2 h2, (∀ a, h.next ≤ a → h.mem a = none) →
      deepCloneVal fuel h v = some (v2, h2) →
      cloneOk h h2 ∧ valHigh h.next v2) ∧
    (∀ h l l2 h2, (∀ a, h.next ≤ a → h.mem a = none) →
      deepCloneEntries fuel h l = some (l2, h2) →
      cloneOk h h2 ∧ ∀ p ∈ l2, valHigh h.next p.2) ∧
    (∀ h l l2 h2, (∀ a, h.next ≤ a → h.mem a = none) →
      deepCloneElems fuel h l = some (l2, h2) →
      cloneOk h h2 ∧ ∀ v ∈ l2, valHigh h.next v) := by
  intro fuel
  induction fuel with
  | zero =>
    refine ⟨?_, ?_, ?_⟩
    · intro h v v2 h2 hwf hcl
      simp [deepCloneVal] at hcl
    · intro h l l2 h2 hwf hcl
      cases l with
      | nil =>
        simp only [deepCloneEntries, Option.some.injEq, Prod.mk.injEq] at hcl
        obtain ⟨hl2, hh2⟩ := hcl
        subst hl2; subst hh2
        exact ⟨cloneOk_refl h hwf, by simp⟩
      | cons p rest =>
        obtain ⟨k, v⟩ := p
        simp [deepCloneEntries, deepCloneVal] at hcl
    · intro h l l2 h2 hwf hcl
      cases l with
      | nil =>
        simp only [deepCloneElems, Option.some.injEq, Prod.mk.injEq] at hcl
        obtain ⟨hl2, hh2⟩ := hcl
        subst hl2; subst hh2
        exact ⟨cloneOk_refl h hwf, by simp⟩
      | cons v rest =>
        simp [deepCloneElems, deepCloneVal] at hcl
  | succ f ih =>
    obtain ⟨ihv, ihe, ihl⟩ := ih
    have hval : ∀ h v v2 h2, (∀ a, h.next ≤ a → h.mem a = none) →
        deepCloneVal (f + 1) h v = some (v2, h2) →
        cloneOk h h2 ∧ valHigh h.next v2 := by
      intro h v v2 h2 hwf hcl
      cases v with
      | scalar s =>
        simp only [deepCloneVal, Option.some.injEq, Prod.mk.injEq] at hcl
        obtain ⟨hv2, hh2⟩ := hcl
        subst hv2; subst hh2
        exact ⟨cloneOk_refl h hwf, trivial⟩
      | ref a =>
        rw [deepCloneVal] at hcl
        cases hmem : h.mem a with
        | none => rw [hmem] at hcl; cases hcl
        | some node =>
          rw [hmem] at hcl
          cases node with
          | map entries =>
            dsimp only at hcl
            cases hrec : deepCloneEntries f h entries with
            | none => rw [hrec] at hcl; cases hcl
            | some pr =>
              obtain ⟨entries2, hA⟩ := pr
              rw [hrec] at hcl
              simp only [Option.some.injEq, Prod.mk.injEq] at hcl
              obtain ⟨hv2, hh2⟩ := hcl
              subst hv2; subst hh2
              obtain ⟨hok, hhigh⟩ := ihe h entries entries2 hA hwf hrec
              have hnode : nodeHigh h.next (.map entries2) := by
                intro w hw
                simp only [nodeVals, List.mem_map] at hw
                obtain ⟨p, hp, hpw⟩ := hw
                rw [← hpw]
                exact hhigh p hp
              exact (cloneOk_alloc (.map entries2) hok hnode).imp id id
          | arr elems =>
            dsimp only at hcl
            cases hrec : deepCloneElems f h elems with
            | none => rw [hrec] at hcl; cases hcl
            | some pr =>
              obtain ⟨elems2, hA⟩ := pr
              rw [hrec] at hcl
              simp only [Option.some.injEq, Prod.mk.injEq] at hcl
              obtain ⟨hv2, hh2⟩ := hcl
              subst hv2; subst hh2
              obtain ⟨hok, hhigh⟩ := ihl h elems elems2 hA hwf hrec
              have hnode : nodeHigh h.next (.arr elems2) := by
                intro w hw
                exact hhigh w hw
              exact (cloneOk_alloc (.arr elems2) hok hnode).imp id id
    have hentries : ∀ l h l2 h2, (∀ a, h.next ≤ a → h.mem a = none) →
        deepCloneEntries (f + 1) h l = some (l2, h2) →
        cloneOk h h2 ∧ ∀ p ∈ l2, valHigh h.next p.2 := by
      intro l
      induction l with
      | nil =>
        intro h l2 h2 hwf hcl
        simp only [deepCloneEntries, Option.some.injEq, Prod.mk.injEq] at hcl
        obtain ⟨hl2, hh2⟩ := hcl
        subst hl2; subst hh2
        exact ⟨cloneOk_refl h hwf, by simp⟩
      | cons p rest ihrest =>
        intro h l2 h2 hwf hcl
        obtain ⟨k, v⟩ := p
        rw [deepCloneEntries] at hcl
        cases hv : deepCloneVal (f + 1) h v with
        | none => rw [hv] at hcl; cases hcl
        | some pr =>
          obtain ⟨v2, hA⟩ := pr
          rw [hv] at hcl
          dsimp only at hcl
          cases hrest : deepCloneEntries (f + 1) hA rest with
          | none => rw [hrest] at hcl; cases hcl
          | some pr2 =>
            obtain ⟨rest2, hB⟩ := pr2
            rw [hrest] at hcl
            simp only [Option.some.injEq, Prod.mk.injEq] at hcl
            obtain ⟨hl2, hh2⟩ := hcl
            subst hl2; subst hh2
            obtain ⟨hok1, hhigh1⟩ := hval h v v2 hA hwf hv
            obtain ⟨hok2, hhigh2⟩ := ihrest hA rest2 hB hok1.2.2.1 hrest
            refine ⟨cloneOk_trans hok1 hok2, ?_⟩
            intro q hq
            rcases List.mem_cons.mp hq with rfl | hq2
            · exact hhigh1
            · exact valHigh_mono hok1.2.1 (hhigh2 q hq2)
    have helems : ∀ l h l2 h2, (∀ a, h.next ≤ a → h.mem a = none) →
        deepCloneElems (f + 1) h l = some (l2, h2) →
        cloneOk h h2 ∧ ∀ v ∈ l2, valHigh h.next v := by
      intro l
      induction l with
      | nil =>
        intro h l2 h2 hwf hcl
        simp only [deepCloneElems, Option.some.injEq, Prod.mk.injEq] at hcl
        obtain ⟨hl2, hh2⟩ := hcl
        subst hl2; subst hh2
        exact ⟨cloneOk_refl h hwf, by simp⟩
      | cons v rest ihrest =>
        intro h l2 h2 hwf hcl
        rw [deepCloneElems] at hcl
        cases hv : deepCloneVal (f + 1) h v with
        | none => rw [hv] at hcl; cases hcl
        | some pr =>
          obtain ⟨v2, hA⟩ := pr
          rw [hv] at hcl
          dsimp only at hcl
          cases hrest : deepCloneElems (f + 1) hA rest with
          | none => rw [hrest] at hcl; cases hcl
          | some pr2 =>
            obtain ⟨rest2, hB⟩ := pr2
            rw [hrest] at hcl
            simp only [Option.some.injEq, Prod.mk.injEq] at hcl
            obtain ⟨hl2, hh2⟩ := hcl
            subst hl2; subst hh2
            obtain ⟨hok1, hhigh1⟩ := hval h v v2 hA hwf hv
            obtain ⟨hok2, hhigh2⟩ := ihrest hA rest2 hB hok1.2.2.1 hrest
            refine ⟨cloneOk_trans hok1 hok2, ?_⟩
            intro q hq
            rcases List.mem_cons.mp hq with rfl | hq2
            · exact hhigh1
            · exact valHigh_mono hok1.2.1 (hhigh2 q hq2)
    exact ⟨hval, fun h l => hentries l h, fun h l => helems l h⟩

lemma valHigh_scalar (bound : ℕ) (s : GoScalar) : valHigh bound (.scalar s) := by
  simp [valHigh]

lemma processOk_refl {bound : ℕ} {h : GoHeap} (hcl : highClosed h bound) :
    processOk bound h h := ⟨fun _ _ => rfl, hcl, rfl⟩

lemma processOk_trans {bound : ℕ} {h hA hB : GoHeap} (h1 : processOk bound h hA)
    (h2 : processOk bound hA hB) : processOk bound h hB :=
  ⟨fun a ha => (h2.1 a ha).trans (h1.1 a ha), h2.2.1, h2.2.2.trans h1.2.2⟩

lemma processOk_write {bound : ℕ} {h : GoHeap} {a : ℕ} {k : String} {sc : GoScalar}
    (hBa : bound ≤ a) (hcl : highClosed h bound) :
    processOk bound h (writeEntry h a k (.scalar sc)) :=
  ⟨fun b hb => writeEntry_mem_ne _ _ _ _ b (by omega), writeEntry_highClosed hBa hcl, rfl⟩

/-- The map-entry loop of the substitution only touches cells at or above the
bound, given the node address and all entry values are at or above it. -/
lemma processEntriesAux (draws : ℕ → GoScalar) (bound fuel : ℕ)
    (hval : ∀ h v idx h2 idx2, valHigh bound v → highClosed h bound →
      processVal draws fuel h v idx = some (h2, idx2) → processOk bound h h2) :
    ∀ (l : List (String × GoVal)) (h : GoHeap) (a idx : ℕ) (h2 : GoHeap) (idx2 : ℕ),
      bound ≤ a → (∀ p ∈ l, valHigh bound p.2) → highClosed h bound →
      processMapEntries draws fuel h a l idx = some (h2, idx2) → processOk bound h h2 := by
  intro l
  induction l with
  | nil =>
    intro h a idx h2 idx2 hBa hhigh hcl hp
    simp only [processMapEntries, Option.some.injEq, Prod.mk.injEq] at hp
    obtain ⟨hh2, _⟩ := hp
    subst hh2
    exact processOk_refl hcl
  | cons p rest ihrest =>
    intro h a idx h2 idx2 hBa hhigh hcl hp
    obtain ⟨k, v⟩ := p
    have hhead : valHigh bound v := hhigh (k, v) (List.mem_cons_self _ _)
    have htail : ∀ q ∈ rest, valHigh bound q.2 :=
      fun q hq => hhigh q (List.mem_cons_of_mem _ hq)
    cases v with
    | scalar sc =>
      cases sc with
      | str s =>
        rw [processMapEntries.eq_def] at hp
        dsimp only at hp
        by_cases hph : s = "<int>" ∨ s = "<string>"
        · rw [if_pos hph] at hp
          have hstep := @processOk_write bound h a k (draws idx) hBa hcl
          have hrest := ihrest (writeEntry h a k (.scalar (draws idx))) a (idx + 1)
            h2 idx2 hBa htail hstep.2.1 hp
          exact processOk_trans hstep hrest
        · rw [if_neg hph] at hp
          exact ihrest h a idx h2 idx2 hBa htail hcl hp
      | int n =>
        rw [processMapEntries.eq_def] at hp
        dsimp only at hp
        cases hv : processVal draws fuel h (.scalar (.int n)) idx with
        | none => rw [hv] at hp; cases hp
        | some pr =>
          obtain ⟨hA, idxA⟩ := pr
          rw [hv] at hp
          have hstep := hval h _ idx hA idxA (valHigh_scalar bound _) hcl hv
          exact processOk_trans hstep
            (ihrest hA a idxA h2 idx2 hBa htail hstep.2.1 hp)
      | other =>
        rw [processMapEntries.eq_def] at hp
        dsimp only at hp
        cases hv : processVal draws fuel h (.scalar .other) idx with
        | none => rw [hv] at hp; cases hp
        | some pr =>
          obtain ⟨hA, idxA⟩ := pr
          rw [hv] at hp
          have hstep := hval h _ idx hA idxA (valHigh_scalar bound _) hcl hv
          exact processOk_trans hstep
            (ihrest hA a idxA h2 idx2 hBa htail hstep.2.1 hp)
    | ref b =>
      rw [processMapEntries.eq_def] at hp
      dsimp only at hp
      cases hv : processVal draws fuel h (.ref b) idx with
      | none => rw [hv] at hp; cases hp
      | some pr =>
        obtain ⟨hA, idxA⟩ := pr
        rw [hv] at hp
        have hstep := hval h _ idx hA idxA hhead hcl hv
        exact processOk_trans hstep
          (ihrest hA a idxA h2 idx2 hBa htail hstep.2.1 hp)

/-- The slice loop of the substitution only touches cells at or above the
bound. -/
lemma processElemsAux (draws : ℕ → GoScalar) (bound fuel : ℕ)
    (hval : ∀ h v idx h2 idx2, valHigh bound v → highClosed h bound →
      processVal draws fuel h v idx = some (h2, idx2) → processOk bound h h2) :
    ∀ (l : List GoVal) (h : GoHeap) (idx : ℕ) (h2 : GoHeap) (idx2 : ℕ),
      (∀ v ∈ l, valHigh bound v) → highClosed h bound →
      processElems draws fuel h l idx = some (h2, idx2) → processOk bound h h2 := by
  intro l
  induction l with
  | nil =>
    intro h idx h2 idx2 hhigh hcl hp
    simp only [processElems, Option.some.injEq, Prod.mk.injEq] at hp
    obtain ⟨hh2, _⟩ := hp
    subst hh2
    exact processOk_refl hcl
  | cons v rest ihrest =>
    intro h idx h2 idx2 hhigh hcl hp
    rw [processElems] at hp
    cases hv : processVal draws fuel h v idx with
    | none => rw [hv] at hp; cases hp
    | some pr =>
      obtain ⟨hA, idxA⟩ := pr
      rw [hv] at hp
      have hstep := hval h v idx hA idxA (hhigh v (List.mem_cons_self _ _)) hcl hv
      exact processOk_trans hstep
        (ihrest hA idxA h2 idx2 (fun w hw => hhigh w (List.mem_cons_of_mem _ hw))
          hstep.2.1 hp)

/-- Placeholder substitution started at a value above the bound never touches
cells below the bound and allocates nothing. -/
lemma processValSpec (draws : ℕ → GoScalar) (bound : ℕ) :
    ∀ (fuel : ℕ) (h : GoHeap) (v : GoVal) (idx : ℕ) (h2 : GoHeap) (idx2 : ℕ),
      valHigh bound v → highClosed h bound →
      processVal draws fuel h v idx = some (h2, idx2) → processOk bound h h2 := by
  intro fuel
  induction fuel with
  | zero =>
    intro h v idx h2 idx2 _ _ hp
    simp [processVal] at hp
  | succ f ihf =>
    intro h v idx h2 idx2 hv hcl hp
    cases v with
    | scalar s =>
      simp only [processVal, Option.some.injEq, Prod.mk.injEq] at hp
      obtain ⟨hh2, _⟩ := hp
      subst hh2
      exact processOk_refl hcl
    | ref a =>
      have hBa : bound ≤ a := hv
      rw [processVal] at hp
      cases hmem : h.mem a with
      | none => rw [hmem] at hp; cases hp
      | some node =>
        rw [hmem] at hp
        have hnode : nodeHigh bound node := hcl a node hmem hBa
        cases node with
        | map entries =>
          dsimp only at hp
          have hflat : ∀ p ∈ entries, valHigh bound p.2 := by
            intro p hpmem
            exact hnode p.2 (by simp only [nodeVals, List.mem_map]; exact ⟨p, hpmem, rfl⟩)
          exact processEntriesAux draws bound f ihf entries h a idx h2 idx2 hBa hflat hcl hp
        | arr elems =>
          dsimp only at hp
          exact processElemsAux draws bound f ihf elems h idx h2 idx2 hnode hcl hp

/-- C9: materializing an operation never mutates the shared query template.
The deep clone allocates only fresh cells and the placeholder substitution
runs only on the clone, so after any worker iteration every pre-existing
heap cell, in particular every cell of the template Filter map or Pipeline
slice, holds exactly the node it held before; substitution also allocates
nothing. -/
theorem deepClone_process_template_unchanged
    (fuel1 fuel2 : ℕ) (h h2 h3 : GoHeap) (tmpl v2 : GoVal)
    (draws : ℕ → GoScalar) (idx idx2 : ℕ)
    (hwf : ∀ a, h.next ≤ a → h.mem a = none)
    (hreach : ∀ b, Reaches h tmpl b → b < h.next)
    (hclone : deepCloneVal fuel1 h tmpl = some (v2, h2))
    (hproc : processVal draws fuel2 h2 v2 idx = some (h3, idx2)) :
    (∀ a, a < h.next → h3.mem a = h.mem a) ∧
    (∀ a, Reaches h tmpl a → h3.mem a = h.mem a) ∧
    h3.next = h2.next := by
  obtain ⟨hok, hhigh⟩ := (cloneSpec fuel1).1 h tmpl v2 h2 hwf hclone
  have hclosed : highClosed h2 h.next := fun a n hmem ha => hok.2.2.2 a n hmem ha
  have hpok := processValSpec draws h.next fuel2 h2 v2 idx h3 idx2 hhigh hclosed hproc
  have hlow : ∀ a, a < h.next → h3.mem a = h.mem a := by
    intro a ha
    rw [hpok.1 a ha, hok.1 a ha]
  exact ⟨hlow, fun a hr => hlow a (hreach a hr), hpok.2.2⟩

lemma reaches_scalar {h : GoHeap} {sc : GoScalar} {b : ℕ} :
    ¬ Reaches h (.scalar sc) b := fun hr => by cases hr

lemma reaches_ref {h : GoHeap} {a b : ℕ} (hr : Reaches h (.ref a) b) :
    b = a ∨ ∃ n v, h.mem a = some n ∧ v ∈ nodeVals n ∧ Reaches h v b := by
  cases hr with
  | here => exact Or.inl rfl
  | step =>
    rename_i n v hmem hv hr2
    exact Or.inr ⟨n, v, hv, hmem, hr2⟩

lemma deepCloneVal_scalar (fuel : ℕ) (h : GoHeap) (sc : GoScalar) (hf : fuel ≠ 0) :
    deepCloneVal fuel h (.scalar sc) = some (.scalar sc, h) := by
  cases fuel with
  | zero => exact absurd rfl hf
  | succ f => rw [deepCloneVal]

lemma deepCloneEntries_nil (fuel : ℕ) (h : GoHeap) :
    deepCloneEntries fuel h [] = some ([], h) := by
  rw [deepCloneEntries.eq_def]

lemma processMapEntries_nil (draws : ℕ → GoScalar) (fuel : ℕ) (h : GoHeap)
    (a idx : ℕ) : processMapEntries draws fuel h a [] idx = some (h, idx) := by
  rw [processMapEntries.eq_def]

/-- Witness for C9: a one-entry filter template is cloned and substituted;
the template cell at address 0 is untouched while the clone at address 1
holds the substituted value. -/
theorem deepClone_process_template_unchanged_witness :
    deepCloneVal 2 demoHeap demoTemplate = some (.ref 1, demoCloneHeap) ∧
    processVal (fun _ => GoScalar.int 7) 2 demoCloneHeap (.ref 1) 0 =
      some (demoFinalHeap, 1) ∧
    demoFinalHeap.mem 0 = demoHeap.mem 0 ∧
    demoFinalHeap.mem 1 = some (.map [("x", .scalar (.int 7))]) := by
  have hwf : ∀ a, demoHeap.next ≤ a → demoHeap.mem a = none := by
    intro a ha
    simp only [demoHeap] at ha ⊢
    have hne : a ≠ 0 := by omega
    simp [hne]
  have hclone : deepCloneVal 2 demoHeap demoTemplate = some (.ref 1, demoCloneHeap) := by
    rw [show (2 : ℕ) = 1 + 1 from rfl]
    rw [demoTemplate, deepCloneVal]
    rw [show demoHeap.mem 0 = some (.map [("x", .scalar (.str "<int>"))]) from rfl]
    dsimp only
    rw [deepCloneEntries.eq_def]
    dsimp only
    rw [deepCloneVal_scalar 1 demoHeap _ (by omega)]
    dsimp only
    rw [deepCloneEntries_nil]
    rfl
  have hproc : processVal (fun _ => GoScalar.int 7) 2 demoCloneHeap (.ref 1) 0 =
      some (demoFinalHeap, 1) := by
    rw [show (2 : ℕ) = 1 + 1 from rfl]
    rw [processVal]
    rw [show demoCloneHeap.mem 1 = some (.map [("x", .scalar (.str "<int>"))]) from rfl]
    dsimp only
    rw [processMapEntries.eq_def]
    dsimp only
    rw [if_pos (Or.inl rfl)]
    rw [processMapEntries_nil]
    rfl
  have hreach : ∀ b, Reaches demoHeap demoTemplate b → b < demoHeap.next := by
    intro b hr
    rw [demoTemplate] at hr
    rcases reaches_ref hr with rfl | ⟨n, v, hmem, hv, hr2⟩
    · simp [demoHeap]
    · have hm0 : demoHeap.mem 0 = some (.map [("x", .scalar (.str "<int>"))]) := rfl
      rw [hm0] at hmem
      have hn := Option.some.inj hmem
      subst hn
      simp only [nodeVals, List.map_cons, List.map_nil, List.mem_singleton] at hv
      subst hv
      exact absurd hr2 reaches_scalar
  have hmain := deepClone_process_template_unchanged 2 2 demoHeap demoCloneHeap
    demoFinalHeap demoTemplate (.ref 1) (fun _ => GoScalar.int 7) 0 1
    hwf hreach hclone hproc
  refine ⟨hclone, hproc, hmain.1 0 (by simp [demoHeap]), ?_⟩
  rw [demoFinalHeap, writeEntry_mem_self]
  rw [show demoCloneHeap.mem 1 = some (.map [("x", .scalar (.str "<int>"))]) from rfl]
  rfl
